import Mathlib

/-!
Verification of the papelada extraction core (job classifier, scheduler,
per-document extractor, rule cache, background pattern learner) against its
natural-language specification.

The Python source (src/papelada/extractor.py, src/papelada/orchestrator.py) is
shallowly embedded below.  Regular-expression matching (Python's `re` module)
is an external library from the program's point of view, so it is abstracted
as a `SearchFn` parameter: a function from pattern and text to a search
outcome (`err` models `re.error`, `matched g` models a match whose extracted
group — group 1 when the pattern has capture groups, else group 0 — is `g`,
with `none` standing for an unparticipated group 1).  Likewise the two LLM
oracles are parameters.  Python dicts are embedded as association lists with
first-key lookup and order-preserving update; dict key iteration is embedded
via `dedupFirst`.  Wall-clock metrics fields are not modelled.
-/

/-- Outcome of `re.search(pattern, text, re.MULTILINE | re.DOTALL)` followed by
the source's group extraction (`group(1)` if the pattern has groups else
`group(0)`): `err` is an `re.error`, `noMatch` means no match, and
`matched g` carries the extracted group content (`none` when group 1 did not
participate in the match). -/
inductive SearchResult where
  | err : SearchResult
  | noMatch : SearchResult
  | matched : Option String → SearchResult
deriving DecidableEq, Repr

/-- Abstract regex engine: pattern → text → outcome. -/
def SearchFn : Type := String → String → SearchResult

/-- Python truthiness-free dict get: first binding of the key, if any. -/
def dictGet {β : Type} (l : List (String × β)) (k : String) : Option β :=
  List.lookup k l

/-- Python dict assignment `d[k] = v`: replace the value in place if the key
is present (keeping its position), else append the new binding. -/
def dictSet {β : Type} (l : List (String × β)) (k : String) (v : β) :
    List (String × β) :=
  if l.any (fun p => p.1 = k) then
    l.map (fun p => if p.1 = k then (k, v) else p)
  else
    l ++ [(k, v)]

/-- Worker for `dedupFirst`: `seen` holds the elements already emitted. -/
def dedupFirstAux {α : Type} [DecidableEq α] (seen : List α) : List α → List α
  | [] => []
  | x :: xs =>
    if x ∈ seen then dedupFirstAux seen xs
    else x :: dedupFirstAux (seen ++ [x]) xs

/-- First-occurrence deduplication, mirroring iteration over the keys of a
Python dict built from a possibly-repeating key sequence. -/
def dedupFirst {α : Type} [DecidableEq α] (l : List α) : List α :=
  dedupFirstAux [] l

/-- Python `str.strip()`: drop leading and trailing whitespace. -/
def pyStrip (s : String) : String :=
  String.mk (((s.data.dropWhile Char.isWhitespace).reverse.dropWhile
    Char.isWhitespace).reverse)

/-- Python `str.lower()` (ASCII case folding, as in the texts handled here). -/
def pyLower (s : String) : String :=
  String.mk (s.data.map Char.toLower)

/-- `Extractor._normalize_for_validation` whitespace collapse: every run of
whitespace characters becomes a single space (`re.sub(r'\s+', ' ', ·)`). -/
def collapseWsAux : Bool → List Char → List Char
  | _, [] => []
  | prevWs, c :: rest =>
    if c.isWhitespace then
      if prevWs then collapseWsAux true rest
      else ' ' :: collapseWsAux true rest
    else c :: collapseWsAux false rest

/-- `Extractor._normalize_for_validation`: collapse whitespace runs to single
spaces, trim, and lower-case.  The Python falsiness guard (`if not text`)
is handled by the `Option` wrapper `normalizeOpt` below. -/
def normalizeForValidation (s : String) : String :=
  pyLower (pyStrip (String.mk (collapseWsAux false s.data)))

/-- `_normalize_for_validation` applied to a possibly-`None` value: Python
returns `""` for `None` (and for `""` itself, which normalizes to `""`). -/
def normalizeOpt : Option String → String
  | none => ""
  | some s => normalizeForValidation s

/-- The shared rule cache (`shared_memory`): `label → field → pattern`.
Committed patterns are always strings, so entries are embedded as `String`;
the empty string is Python-falsy and hence counts as a missing rule in the
orchestrator's warmness test. -/
def Memory : Type := List (String × List (String × String))

/-- `memory.get(label, {}).get(field)`. -/
def memRuleGet (memory : Memory) (label field : String) : Option String :=
  match dictGet memory label with
  | none => none
  | some rules => dictGet rules field

/-- `Extractor.known_rules`: for each schema key in order, the cached rule for
`(label, key)` when present (every stored entry is a string, so the
`isinstance(rule_entry, str)` filter always passes in this embedding). -/
def knownRulesOf (memory : Memory) (label : String) (keys : List String) :
    List (String × String) :=
  keys.filterMap (fun f => (memRuleGet memory label f).map (fun r => (f, r)))

/-- `Extractor._apply`: run each known rule against the text; on a match whose
extracted group is not `None`, strip it and store it; `re.error` and failed
matches leave the field untouched. -/
def applyKnownRules (search : SearchFn) (text : String)
    (data : List (String × String)) (rules : List (String × String)) :
    List (String × String) :=
  rules.foldl (fun d fr =>
    match search fr.2 text with
    | .matched (some content) => dictSet d fr.1 (pyStrip content)
    | _ => d) data

/-- One per-field answer of the field-inference oracle:
`data_obj.get("dado")` and `data_obj.get("confidence")`. -/
structure FieldAnswer where
  dado : Option String
  confidence : Option String
deriving DecidableEq, Repr

/-- Result of `LLMExtractor.extract_data_json`: either a parsed
`json_response` (field ↦ answer) or a tagged error value. -/
inductive OracleResp where
  | ok : List (String × FieldAnswer) → OracleResp
  | failed : String → OracleResp
deriving DecidableEq, Repr

/-- The field-inference oracle as a deterministic parameter:
text and requested `{field: description}` schema ↦ response. -/
def OracleFn : Type := String → List (String × String) → OracleResp

/-- A learning candidate prepared for the background task:
`{"ref_value": ..., "description": ...}`. -/
structure LearnCand where
  refValue : String
  description : Option String
deriving DecidableEq, Repr

/-- A spawned `_background_regex_task` handle.  `completed` is false at spawn
time and becomes true only when the task is awaited. -/
structure BgTask where
  label : String
  text : String
  schemaForLearning : List (String × LearnCand)
  completed : Bool
deriving DecidableEq, Repr

/-- Loop body of the oracle-fallback stage of `Extractor.extract`: for an
answered field that was requested, the raw value overwrites the field
whenever it is not `None`; the confidence / "null"-sentinel test
(`is_valid_for_learning`) gates only the learning-candidate selection. -/
def applyOneAnswer (currentFields knownFields reusableFields : List String)
    (schemaFields : List (String × String))
    (st : List (String × String) × List (String × LearnCand))
    (fa : String × FieldAnswer) :
    List (String × String) × List (String × LearnCand) :=
  if fa.1 ∈ currentFields then
    match fa.2.dado with
    | none => st
    | some v =>
      let data := dictSet st.1 fa.1 v
      let cands :=
        if fa.2.confidence ≠ some "low" ∧ pyLower (pyStrip v) ≠ "null"
            ∧ fa.1 ∉ knownFields ∧ fa.1 ∈ reusableFields then
          st.2 ++ [(fa.1, ⟨v, dictGet schemaFields fa.1⟩)]
        else st.2
      (data, cands)
  else st

/-- The oracle-fallback loop over `llm_extracted_data["json_response"]`. -/
def applyAnswers (currentFields knownFields reusableFields : List String)
    (schemaFields : List (String × String)) (data : List (String × String))
    (answers : List (String × FieldAnswer)) :
    List (String × String) × List (String × LearnCand) :=
  answers.foldl (applyOneAnswer currentFields knownFields reusableFields schemaFields)
    (data, [])

/-- Synchronous outcome of `Extractor.extract`: the extracted data, the number
of field-inference oracle calls, the learning candidates, and the spawned
background task handle, if any. -/
structure ExtractOut where
  data : List (String × String)
  llmDataCalls : Nat
  cands : List (String × LearnCand)
  task : Option BgTask
deriving DecidableEq, Repr

/-- `Extractor.extract`: apply cached rules, fall back to the field-inference
oracle for fields still `'null'` (one call, skipped when the client is
absent), and spawn a background learning task when the mode is not
`standard` and the candidate set is non-empty. -/
def extractModel (search : SearchFn) (oracle : OracleFn) (memory : Memory)
    (label : String) (schemaFields : List (String × String)) (text : String)
    (mode : String) (clientPresent : Bool) (reusableFields : List String) :
    ExtractOut :=
  let keys := dedupFirst (schemaFields.map Prod.fst)
  let data0 := keys.map (fun f => (f, "null"))
  let knownRules := knownRulesOf memory label keys
  let data1 := applyKnownRules search text data0 knownRules
  if data1.any (fun p => p.2 = "null") then
    if clientPresent then
      let fieldsToExtract := (data1.filter (fun p => p.2 = "null")).map Prod.fst
      let currentSchema :=
        fieldsToExtract.filterMap (fun f => (dictGet schemaFields f).map (fun d => (f, d)))
      let st : List (String × String) × List (String × LearnCand) :=
        match oracle text currentSchema with
        | .ok answers =>
          applyAnswers (currentSchema.map Prod.fst) (knownRules.map Prod.fst)
            reusableFields schemaFields data1 answers
        | .failed _ => (data1, [])
      let task :=
        if mode ≠ "standard" ∧ st.2 ≠ [] then
          some ⟨label, text, st.2, false⟩
        else none
      ⟨st.1, 1, st.2, task⟩
    else
      ⟨data1, 0, [], none⟩
  else
    ⟨data1, 0, [], none⟩

/-- The `extracted_value` computed when `_background_regex_task` re-applies a
synthesized pattern: the match's group content, stripped; `None` on a
failed match, an unparticipated group 1, or an `re.error`. -/
def bgExtracted (search : SearchFn) (regex text : String) : Option String :=
  match search regex text with
  | .matched g => g.map pyStrip
  | _ => none

/-- Validation of one synthesized pattern in `_background_regex_task`:
`re.error` fails; otherwise the pattern's extracted value must normalize
to a non-empty string equal to the normalized reference value (a failed
match extracts `None`, which normalizes to `""` and always fails the
non-empty check). -/
def bgRuleValid (search : SearchFn) (text regex refValue : String) : Bool :=
  if search regex text = .err then false
  else
    let ne := normalizeOpt (bgExtracted search regex text)
    decide (ne ≠ "") && decide (ne = normalizeForValidation refValue)

/-- Result of `LLMExtractor.generate_regex_json`: field ↦ `rule_entry.get("regex")`. -/
inductive RegexResp where
  | ok : List (String × Option String) → RegexResp
  | failed : String → RegexResp
deriving DecidableEq, Repr

/-- The pattern-synthesis oracle as a parameter. -/
def RegexOracleFn : Type := String → List (String × LearnCand) → RegexResp

/-- The `(field, pattern)` pairs that `_background_regex_task` writes into the
rule cache: answers for requested fields whose regex and reference value
are non-falsy and that pass validation; everything else is discarded. -/
def bgCommits (search : SearchFn) (text : String)
    (schemaForLearning : List (String × LearnCand)) (resp : RegexResp) :
    List (String × String) :=
  match resp with
  | .failed _ => []
  | .ok entries =>
    entries.filterMap (fun fe =>
      match dictGet schemaForLearning fe.1 with
      | none => none
      | some cand =>
        match fe.2 with
        | none => none
        | some regex =>
          if regex = "" ∨ cand.refValue = "" then none
          else if bgRuleValid search text regex cand.refValue then some (fe.1, regex)
          else none)

/-- One submitted job (`schema` entry of `extr_schema`): document key,
label, and the ordered `extraction_schema` (field ↦ description). -/
structure Schema where
  pdfPath : String
  label : String
  fields : List (String × String)
deriving DecidableEq, Repr

/-- Unique field names of a schema, in insertion order (Python dict keys). -/
def keysOf (s : Schema) : List String :=
  dedupFirst (s.fields.map Prod.fst)

/-- Insertion of one element into a list ordered by the boolean relation `r`
(`r x y` means `x` may precede `y`). -/
def insertOrd {α : Type} (r : α → α → Bool) (x : α) : List α → List α
  | [] => [x]
  | y :: ys => if r x y then x :: y :: ys else y :: insertOrd r x ys

/-- Insertion sort by `r`; used to embed Python's `sorted`/`list.sort`
(the properties proved below depend only on the output being ordered and a
permutation, not on tie order). -/
def sortOrd {α : Type} (r : α → α → Bool) (l : List α) : List α :=
  l.foldr (insertOrd r) []

/-- Lexicographic comparison of character lists by code point (used only to
pick a canonical order; any linear order would do). -/
def charsLe : List Char → List Char → Bool
  | [], _ => true
  | _ :: _, [] => false
  | a :: as, b :: bs =>
    if a.toNat < b.toNat then true
    else if b.toNat < a.toNat then false
    else charsLe as bs

/-- Computable lexicographic string comparison. -/
def strLeb (a b : String) : Bool := charsLe a.data b.data

/-- Canonical representation of a Python `frozenset` of strings: sorted,
duplicate-free. -/
def canonSet (l : List String) : List String :=
  sortOrd strLeb (dedupFirst l)

/-- The scheduling `job_id`: the bare label in `smart` mode, otherwise the
pair of label and field-name set (`(schema['label'], frozenset(keys))`). -/
inductive JobId where
  | lbl : String → JobId
  | lblFields : String → List String → JobId
deriving DecidableEq, Repr

/-- `job_id` computed for a schema under the given global mode. -/
def jobIdOf (mode : String) (s : Schema) : JobId :=
  if mode = "smart" then .lbl s.label
  else .lblFields s.label (canonSet (s.fields.map Prod.fst))

/-- `field_counter[(label, field)]`: number of schemas of this label whose
field set contains the field (each schema counts each of its unique keys
once). -/
def useCount (jobs : List Schema) (label field : String) : Nat :=
  (jobs.map (fun s => if s.label = label ∧ field ∈ keysOf s then 1 else 0)).sum

/-- Membership of `field` in `reusable_fields_map[label]`: the counting block
runs only when the global mode is not `standard`, and a field is reusable
when its counter exceeds 1. -/
def reusableB (mode : String) (jobs : List Schema) (label field : String) : Bool :=
  decide (mode ≠ "standard") && decide (1 < useCount jobs label field)

/-- `reusable_fields_map.get(label, set())` materialized as a list. -/
def reusableFieldsOf (mode : String) (jobs : List Schema) (label : String) :
    List String :=
  (dedupFirst (jobs.flatMap (fun s => if s.label = label then keysOf s else []))).filter
    (fun f => reusableB mode jobs label f)

/-- The reusable-field count used as the (descending) scheduling sort key:
`len(reusable_fields_map.get(label, set()) & frozenset(keys))`. -/
def countOf (mode : String) (jobs : List Schema) (s : Schema) : Nat :=
  ((canonSet (s.fields.map Prod.fst)).filter
    (fun f => reusableB mode jobs s.label f)).length

/-- `is_warm`: every schema field has a Python-truthy cached rule for the
job's label (`not rules_for_label.get(field)` marks a field missing). -/
def isWarmB (memory : Memory) (s : Schema) : Bool :=
  (keysOf s).all (fun f =>
    match memRuleGet memory s.label f with
    | none => false
    | some r => decide (r ≠ ""))

/-- One `job_descriptors` entry. -/
structure JobDesc where
  schema : Schema
  jid : JobId
  warm : Bool
  fieldCount : Nat
deriving DecidableEq, Repr

/-- Descriptor built for one schema. -/
def mkDesc (mode : String) (memory : Memory) (s : Schema) : JobDesc :=
  ⟨s, jobIdOf mode s, isWarmB memory s, (keysOf s).length⟩

/-- `grouped_jobs`: descriptors bucketed by `job_id`, keys in first-occurrence
order, members in submission order (Python `defaultdict(list)`). -/
def groupedJobs (mode : String) (memory : Memory) (jobs : List Schema) :
    List (JobId × List JobDesc) :=
  let ds := jobs.map (mkDesc mode memory)
  (dedupFirst (ds.map (fun d => d.jid))).map
    (fun k => (k, ds.filter (fun d => decide (d.jid = k))))

/-- `is_warm = group[0]['is_warm']`: the classification consults only the
first member of a group (the empty case is unreachable). -/
def groupGoesWarm : List JobDesc → Bool
  | [] => false
  | d :: _ => d.warm

/-- Bucket classification: in `standard` mode everything forms one sequential
group; otherwise each `job_id` group goes to Warm (first member warm),
Orphan (singleton), or Group (teacher group), in that test order. -/
def classifyBuckets (mode : String) (memory : Memory) (jobs : List Schema) :
    List Schema × List Schema × List (List Schema) :=
  if mode = "standard" then ([], [], [jobs])
  else
    let gs := groupedJobs mode memory jobs
    (gs.flatMap (fun kg => if groupGoesWarm kg.2 then kg.2.map (fun d => d.schema) else []),
     gs.flatMap (fun kg =>
       if groupGoesWarm kg.2 then []
       else if kg.2.length = 1 then kg.2.map (fun d => d.schema) else []),
     gs.filterMap (fun kg =>
       if groupGoesWarm kg.2 then none
       else if kg.2.length = 1 then none
       else some (kg.2.map (fun d => d.schema))))

/-- Python tuple `<=` on `(len(group), len(group[0]))` sort keys. -/
def natPairLe (a b : Nat × Nat) : Bool :=
  decide (a.1 < b.1) || (decide (a.1 = b.1) && decide (a.2 ≤ b.2))

/-- `pro`-mode sort key of a teacher group:
`(len(group), len(group[0]['extraction_schema']))`. -/
def proGroupKey (g : List Schema) : Nat × Nat :=
  (g.length, match g with | [] => 0 | s :: _ => (keysOf s).length)

/-- Flattened execution order of the Group-bucket jobs in non-`pro` modes:
one sequence, globally sorted by descending reusable-field count only in
`smart` mode. -/
def seqJobsNonPro (mode : String) (jobs : List Schema)
    (groups : List (List Schema)) : List Schema :=
  let allSeq := groups.flatten
  if mode = "smart" then
    sortOrd (fun a b => decide (countOf mode jobs b ≤ countOf mode jobs a)) allSeq
  else allSeq

/-- Execution order of the Group-bucket jobs in `pro` mode: groups sorted by
descending `(size, first-member field count)`, each group internally sorted
by descending reusable-field count (`run_label_group`); the concurrent
execution of groups is linearized here, which is immaterial because each
job's synchronous result is independent of the others in this model. -/
def seqJobsPro (mode : String) (jobs : List Schema)
    (groups : List (List Schema)) : List Schema :=
  (sortOrd (fun g h => natPairLe (proGroupKey h) (proGroupKey g)) groups).flatMap
    (fun g => sortOrd (fun a b => decide (countOf mode jobs b ≤ countOf mode jobs a)) g)

/-- One scheduled execution of `process_schema`: the job, the effective mode
passed down, and whether the real reusable-field set (rather than the
empty set given to Warm-bucket jobs) is passed. -/
structure PlanEntry where
  schema : Schema
  effMode : String
  useReusable : Bool
deriving DecidableEq, Repr

/-- The order in which the Group-bucket jobs are executed. -/
def groupStageOrder (mode : String) (memory : Memory) (jobs : List Schema) :
    List Schema :=
  if mode = "pro" then seqJobsPro mode jobs (classifyBuckets mode memory jobs).2.2
  else seqJobsNonPro mode jobs (classifyBuckets mode memory jobs).2.2

/-- The run's full execution plan: Warm-bucket jobs (effective mode forced to
`standard`, empty reusable set), then cold orphans, then the Group-bucket
sequence, each at the global mode. -/
def planOf (mode : String) (memory : Memory) (jobs : List Schema) :
    List PlanEntry :=
  (classifyBuckets mode memory jobs).1.map (fun s => ⟨s, "standard", false⟩)
    ++ (classifyBuckets mode memory jobs).2.1.map (fun s => ⟨s, mode, true⟩)
    ++ (groupStageOrder mode memory jobs).map (fun s => ⟨s, mode, true⟩)

/-- The synchronous per-job result assembled by `process_schema` (wall-clock
metric fields are not modelled). -/
structure JobResult where
  label : String
  pdfPath : String
  extractedData : List (String × String)
  llmDataCalls : Nat
  error : Option String
deriving DecidableEq, Repr

/-- `process_schema`: force `standard` when no client is available, look up
the job's preprocessed text (a missing key is the job-fatal
`MissingInputError` path, caught and turned into an error-annotated
result), otherwise run the extractor. -/
def processJob (search : SearchFn) (oracle : OracleFn) (globalMode : String)
    (jobs : List Schema) (pdfs : List (String × String)) (memory : Memory)
    (clientPresent : Bool) (e : PlanEntry) : JobResult × Option BgTask :=
  let eff := if ¬clientPresent ∧ e.effMode ≠ "standard" then "standard" else e.effMode
  let reus := if e.useReusable then reusableFieldsOf globalMode jobs e.schema.label else []
  match dictGet pdfs e.schema.pdfPath with
  | none =>
    (⟨e.schema.label, e.schema.pdfPath,
      (dedupFirst (e.schema.fields.map Prod.fst)).map (fun f => (f, "null")), 0,
      some "Extractor failed: KeyError"⟩, none)
  | some text =>
    let out := extractModel search oracle memory e.schema.label e.schema.fields
      text eff clientPresent reus
    (⟨e.schema.label, e.schema.pdfPath, out.data, out.llmDataCalls, none⟩, out.task)

/-- What `run` hands back to its caller: the results in submission order and
the collected background-task handles, still pending. -/
structure RunOut where
  results : List JobResult
  tasks : List BgTask
deriving DecidableEq, Repr

/-- The orchestrator `run`: classify, execute the plan, store each result
under its document key, collect spawned background-task handles, and
return results in submission order together with the un-awaited handles. -/
def runModel (search : SearchFn) (oracle : OracleFn) (mode : String)
    (jobs : List Schema) (pdfs : List (String × String)) (memory : Memory)
    (clientPresent : Bool) : RunOut :=
  let plan := planOf mode memory jobs
  let step := plan.foldl
    (fun (acc : List (String × JobResult) × List BgTask) e =>
      let rt := processJob search oracle mode jobs pdfs memory clientPresent e
      (dictSet acc.1 e.schema.pdfPath rt.1, acc.2 ++ rt.2.toList))
    ([], [])
  ⟨jobs.filterMap (fun s => dictGet step.1 s.pdfPath), step.2⟩

/-- Awaiting a background task (as `api_main` does after `run` returns). -/
def awaitTask (t : BgTask) : BgTask :=
  { t with completed := true }

/-- The background-task handles spawned across the whole plan, in plan
order: the specification-level description of what `run` collects. -/
def planSpawns (search : SearchFn) (oracle : OracleFn) (mode : String)
    (jobs : List Schema) (pdfs : List (String × String)) (memory : Memory)
    (clientPresent : Bool) : List BgTask :=
  (planOf mode memory jobs).filterMap
    (fun e => (processJob search oracle mode jobs pdfs memory clientPresent e).2)

/-- Whether the cached-rule stage alone resolves every field of the schema
(no field left `'null'` after `_apply`), i.e. no oracle fallback is
needed. -/
def rulesResolveAll (search : SearchFn) (memory : Memory) (label : String)
    (schemaFields : List (String × String)) (text : String) : Bool :=
  let keys := dedupFirst (schemaFields.map Prod.fst)
  !((applyKnownRules search text (keys.map (fun f => (f, "null")))
      (knownRulesOf memory label keys)).any (fun p => p.2 = "null"))

/-- The synchronous result of one job as a function of its own schema, the
texts, the cache and the oracles alone: `process_schema`'s result does not
depend on the effective mode or the reusable set (those only influence
learning-candidate selection and task spawning). -/
def resultOf (search : SearchFn) (oracle : OracleFn)
    (pdfs : List (String × String)) (memory : Memory) (clientPresent : Bool)
    (s : Schema) : JobResult :=
  match dictGet pdfs s.pdfPath with
  | none =>
    ⟨s.label, s.pdfPath,
      (dedupFirst (s.fields.map Prod.fst)).map (fun f => (f, "null")), 0,
      some "Extractor failed: KeyError"⟩
  | some text =>
    ⟨s.label, s.pdfPath,
      (extractModel search oracle memory s.label s.fields text "standard"
        clientPresent []).data,
      (extractModel search oracle memory s.label s.fields text "standard"
        clientPresent []).llmDataCalls,
      none⟩

/-- Whether processing this job can reach the field-inference oracle: false
when its text is missing (error path), when no client is configured, or
when the cached rules resolve every field. -/
def noOracleNeeded (search : SearchFn) (memory : Memory)
    (pdfs : List (String × String)) (clientPresent : Bool) (s : Schema) : Bool :=
  match dictGet pdfs s.pdfPath with
  | none => true
  | some text => !clientPresent || rulesResolveAll search memory s.label s.fields text

/-! ## Concrete fixtures used by counterexamples and witnesses -/

/-- A regex engine on which every pattern fails to match. -/
def searchNone : SearchFn := fun _ _ => .noMatch

/-- A regex engine on which exactly pattern `"R1"` matches text `"T"`,
extracting `" V "`. -/
def searchR1 : SearchFn := fun p t =>
  if p = "R1" ∧ t = "T" then .matched (some " V ") else .noMatch

/-- An oracle answering every requested field with value `"v"`, confidence
`"high"`. -/
def oracleHighV : OracleFn :=
  fun _ fs => .ok (fs.map (fun fd => (fd.1, ⟨some "v", some "high"⟩)))

/-- An oracle answering every requested field with value `"foo"`, confidence
`"low"`. -/
def oracleLowFoo : OracleFn :=
  fun _ fs => .ok (fs.map (fun fd => (fd.1, ⟨some "foo", some "low"⟩)))

/-- An oracle answering every requested field with value `"A"`, confidence
`"high"`. -/
def oracleValA : OracleFn :=
  fun _ fs => .ok (fs.map (fun fd => (fd.1, ⟨some "A", some "high"⟩)))

/-- An oracle answering every requested field with value `"B"`, confidence
`"high"`. -/
def oracleValB : OracleFn :=
  fun _ fs => .ok (fs.map (fun fd => (fd.1, ⟨some "B", some "high"⟩)))

/-- A regex engine on which exactly pattern `"X"` matches text `"t"`,
extracting `"val"`. -/
def searchX : SearchFn := fun p t =>
  if p = "X" ∧ t = "t" then .matched (some "val") else .noMatch

/-- Fixture cache: label `"L"` has a (non-empty) rule only for field `"f"`. -/
def memF : Memory := [("L", [("f", "X")])]

/-- Fixture cache: label `"L"` has a rule only for field `"a"`. -/
def memA : Memory := [("L", [("a", "R")])]

/-- Fixture job: document `"d1"`, label `"L"`, single field `"f"`. -/
def jobF : Schema := ⟨"d1", "L", [("f", "desc")]⟩

/-- Fixture job: document `"p1"`, label `"L"`, single field `"a"`. -/
def jobA1 : Schema := ⟨"p1", "L", [("a", "d")]⟩

/-- Fixture job: document `"p2"`, label `"L"`, fields `"a"` and `"b"`. -/
def jobAB2 : Schema := ⟨"p2", "L", [("a", "d"), ("b", "d")]⟩

/-- Fixture job: document `"p3"`, label `"L"`, fields `"a"` and `"b"`. -/
def jobAB3 : Schema := ⟨"p3", "L", [("a", "d"), ("b", "d")]⟩

/-- Fixture job: document `"pA"`, label `"L"`, single field `"f"`. -/
def jobColdA : Schema := ⟨"pA", "L", [("f", "d")]⟩

/-- Fixture job: document `"pB"`, label `"L"`, single field `"f"`. -/
def jobColdB : Schema := ⟨"pB", "L", [("f", "d")]⟩

/-! ## General lemmas about the embedding's primitives -/

theorem mem_dedupFirstAux {α : Type} [DecidableEq α] (a : α) :
    ∀ (l seen : List α), a ∈ dedupFirstAux seen l ↔ a ∈ l ∧ a ∉ seen := by
  intro l
  induction l with
  | nil => intro seen; simp [dedupFirstAux]
  | cons x xs ih =>
    intro seen
    by_cases hx : x ∈ seen
    · rw [dedupFirstAux, if_pos hx, ih]
      constructor
      · rintro ⟨hmem, hns⟩; exact ⟨List.mem_cons_of_mem _ hmem, hns⟩
      · rintro ⟨hmem, hns⟩
        rcases List.mem_cons.mp hmem with rfl | hmem2
        · exact absurd hx hns
        · exact ⟨hmem2, hns⟩
    · rw [dedupFirstAux, if_neg hx]
      constructor
      · intro h
        rcases List.mem_cons.mp h with rfl | h2
        · exact ⟨List.mem_cons_self _ _, hx⟩
        · obtain ⟨hmem, hns⟩ := (ih _).mp h2
          refine ⟨List.mem_cons_of_mem _ hmem, fun hs => hns ?_⟩
          exact List.mem_append.mpr (Or.inl hs)
      · rintro ⟨hmem, hns⟩
        rcases List.mem_cons.mp hmem with rfl | h2
        · exact List.mem_cons_self _ _
        · by_cases hax : a = x
          · subst hax; exact List.mem_cons_self _ _
          · refine List.mem_cons_of_mem _ ((ih _).mpr ⟨h2, fun hs => ?_⟩)
            rcases List.mem_append.mp hs with h3 | h3
            · exact hns h3
            · exact hax (List.mem_singleton.mp h3)

theorem mem_dedupFirst {α : Type} [DecidableEq α] (a : α) (l : List α) :
    a ∈ dedupFirst l ↔ a ∈ l := by
  rw [dedupFirst, mem_dedupFirstAux]
  simp

theorem nodup_dedupFirstAux {α : Type} [DecidableEq α] :
    ∀ (l seen : List α), (dedupFirstAux seen l).Nodup := by
  intro l
  induction l with
  | nil => intro seen; simp [dedupFirstAux]
  | cons x xs ih =>
    intro seen
    by_cases hx : x ∈ seen
    · rw [dedupFirstAux, if_pos hx]; exact ih seen
    · rw [dedupFirstAux, if_neg hx]
      refine List.nodup_cons.mpr ⟨?_, ih _⟩
      intro hmem
      have := (mem_dedupFirstAux x xs _).mp hmem
      simp at this

theorem nodup_dedupFirst {α : Type} [DecidableEq α] (l : List α) :
    (dedupFirst l).Nodup :=
  nodup_dedupFirstAux l []

theorem dedupFirstAux_congr {α : Type} [DecidableEq α] :
    ∀ (l seen₁ seen₂ : List α), (∀ a, a ∈ seen₁ ↔ a ∈ seen₂) →
      dedupFirstAux seen₁ l = dedupFirstAux seen₂ l := by
  intro l
  induction l with
  | nil => intro seen₁ seen₂ _; simp [dedupFirstAux]
  | cons x xs ih =>
    intro seen₁ seen₂ hiff
    by_cases hx : x ∈ seen₁
    · rw [dedupFirstAux, if_pos hx, dedupFirstAux, if_pos ((hiff x).mp hx)]
      exact ih _ _ hiff
    · rw [dedupFirstAux, if_neg hx, dedupFirstAux,
        if_neg (fun h => hx ((hiff x).mpr h))]
      refine congrArg _ (ih _ _ ?_)
      intro a; simp only [List.mem_append, List.mem_singleton]
      exact or_congr_left (hiff a)

theorem dedupFirstAux_seen_filter {α : Type} [DecidableEq α] (x : α) :
    ∀ (l seen : List α), dedupFirstAux (seen ++ [x]) l =
      dedupFirstAux seen (l.filter (fun y => y ≠ x)) := by
  intro l
  induction l with
  | nil => intro seen; simp [dedupFirstAux]
  | cons y ys ih =>
    intro seen
    by_cases hyx : y = x
    · subst hyx
      rw [dedupFirstAux, if_pos (by simp)]
      have : List.filter (fun z => decide (z ≠ y)) (y :: ys)
          = List.filter (fun z => decide (z ≠ y)) ys := by
        simp [List.filter_cons]
      rw [this]
      exact ih seen
    · have hfilter : List.filter (fun z => decide (z ≠ x)) (y :: ys)
          = y :: List.filter (fun z => decide (z ≠ x)) ys := by
        simp [List.filter_cons, hyx]
      rw [hfilter]
      by_cases hy : y ∈ seen
      · rw [dedupFirstAux, if_pos (by simp [hy]), dedupFirstAux, if_pos hy]
        exact ih seen
      · rw [dedupFirstAux, if_neg (by simp [hy, hyx]), dedupFirstAux, if_neg hy]
        refine congrArg _ ?_
        rw [dedupFirstAux_congr ys ((seen ++ [x]) ++ [y]) ((seen ++ [y]) ++ [x])
          (by intro a; simp; tauto)]
        exact ih (seen ++ [y])

theorem dedupFirst_cons {α : Type} [DecidableEq α] (x : α) (xs : List α) :
    dedupFirst (x :: xs) = x :: dedupFirst (xs.filter (fun y => y ≠ x)) := by
  rw [dedupFirst, dedupFirstAux, if_neg (List.not_mem_nil x)]
  rw [dedupFirst]
  refine congrArg _ ?_
  have := dedupFirstAux_seen_filter x xs []
  simpa using this

theorem lookup_map_setter {β : Type} (k : String) (v : β) :
    ∀ l : List (String × β), l.any (fun p => p.1 = k) = true →
      List.lookup k (l.map (fun p => if p.1 = k then (k, v) else p)) = some v := by
  intro l
  induction l with
  | nil => intro h; simp at h
  | cons p rest ih =>
    obtain ⟨pk, pv⟩ := p
    intro hany
    by_cases hpk : pk = k
    · subst hpk
      simp [List.lookup_cons]
    · have hrest : rest.any (fun p => p.1 = k) = true := by
        simp only [List.any_cons, Bool.or_eq_true, decide_eq_true_eq] at hany
        tauto
      simp only [List.map_cons, List.lookup_cons, if_neg hpk,
        beq_false_of_ne (Ne.symm hpk)]
      exact ih hrest

theorem lookup_map_setter_ne {β : Type} (k kq : String) (v : β) (h : kq ≠ k) :
    ∀ l : List (String × β),
      List.lookup kq (l.map (fun p => if p.1 = k then (k, v) else p))
        = List.lookup kq l := by
  intro l
  induction l with
  | nil => simp
  | cons p rest ih =>
    obtain ⟨pk, pv⟩ := p
    by_cases hpk : pk = k
    · subst hpk
      have hb : (kq == pk) = false := beq_false_of_ne h
      simpa [List.lookup_cons, hb] using ih
    · simp only [List.map_cons, List.lookup_cons, if_neg hpk]
      cases hkq : (kq == pk) with
      | true => rfl
      | false => exact ih

theorem lookup_append_last {β : Type} (k : String) (v : β) :
    ∀ l : List (String × β), l.any (fun p => p.1 = k) = false →
      List.lookup k (l ++ [(k, v)]) = some v := by
  intro l
  induction l with
  | nil => simp [List.lookup_cons]
  | cons p rest ih =>
    obtain ⟨pk, pv⟩ := p
    intro hany
    simp only [List.any_cons, Bool.or_eq_false_iff, decide_eq_false_iff_not] at hany
    simp only [List.cons_append, List.lookup_cons,
      beq_false_of_ne (Ne.symm hany.1)]
    exact ih (by simpa using hany.2)

theorem lookup_append_single_ne {β : Type} (k kq : String) (v : β) (h : kq ≠ k) :
    ∀ l : List (String × β),
      List.lookup kq (l ++ [(k, v)]) = List.lookup kq l := by
  intro l
  induction l with
  | nil => simp [List.lookup_cons, beq_false_of_ne h]
  | cons p rest ih =>
    obtain ⟨pk, pv⟩ := p
    simp only [List.cons_append, List.lookup_cons]
    cases hkq : (kq == pk) with
    | true => rfl
    | false => exact ih

theorem dictGet_dictSet_self {β : Type} (l : List (String × β)) (k : String) (v : β) :
    dictGet (dictSet l k v) k = some v := by
  rw [dictSet]
  by_cases hany : l.any (fun p => p.1 = k) = true
  · rw [if_pos hany, dictGet]
    exact lookup_map_setter k v l hany
  · rw [if_neg hany, dictGet]
    exact lookup_append_last k v l (Bool.eq_false_iff.mpr hany ▸ rfl)

theorem dictGet_dictSet_ne {β : Type} (l : List (String × β)) (k kq : String)
    (v : β) (h : kq ≠ k) : dictGet (dictSet l k v) kq = dictGet l kq := by
  rw [dictSet]
  by_cases hany : l.any (fun p => p.1 = k) = true
  · rw [if_pos hany, dictGet, dictGet]
    exact lookup_map_setter_ne k kq v h l
  · rw [if_neg hany, dictGet, dictGet]
    exact lookup_append_single_ne k kq v h l

theorem bgRuleValid_spec (search : SearchFn) (text regex refValue : String)
    (h : bgRuleValid search text regex refValue = true) :
    search regex text ≠ .err
      ∧ normalizeOpt (bgExtracted search regex text) ≠ ""
      ∧ normalizeOpt (bgExtracted search regex text)
          = normalizeForValidation refValue := by
  rw [bgRuleValid] at h
  by_cases herr : search regex text = .err
  · rw [if_pos herr] at h; exact absurd h (by simp)
  · rw [if_neg herr] at h
    simp only [Bool.and_eq_true, decide_eq_true_eq] at h
    exact ⟨herr, h.1, h.2⟩

theorem bgCommits_mem_spec (search : SearchFn) (text : String)
    (sl : List (String × LearnCand)) (resp : RegexResp) (field pattern : String)
    (hcommit : (field, pattern) ∈ bgCommits search text sl resp) :
    ∃ cand, dictGet sl field = some cand ∧ pattern ≠ "" ∧ cand.refValue ≠ ""
      ∧ bgRuleValid search text pattern cand.refValue = true := by
  cases resp with
  | failed msg => simp [bgCommits] at hcommit
  | ok entries =>
    rw [bgCommits] at hcommit
    obtain ⟨fe, hfe, heq⟩ := List.mem_filterMap.mp hcommit
    rcases hget : dictGet sl fe.1 with _ | cand
    · simp only [hget] at heq; exact absurd heq (by simp)
    · simp only [hget] at heq
      rcases hre : fe.2 with _ | regex
      · simp only [hre] at heq; exact absurd heq (by simp)
      · simp only [hre] at heq
        by_cases hfalsy : regex = "" ∨ cand.refValue = ""
        · rw [if_pos hfalsy] at heq; simp at heq
        · rw [if_neg hfalsy] at heq
          rcases hvalid : bgRuleValid search text regex cand.refValue with _ | _
          · rw [hvalid] at heq; simp at heq
          · rw [hvalid] at heq
            simp only [if_true, Option.some.injEq, Prod.mk.injEq] at heq
            obtain ⟨hf, hr⟩ := heq
            push_neg at hfalsy
            refine ⟨cand, ?_, ?_, hfalsy.2, ?_⟩
            · rw [← hf]; exact hget
            · rw [← hr]; exact hfalsy.1
            · rw [← hr]; exact hvalid

/-! ## Claim theorems -/

/-- C3: for every pattern `R` committed into the RuleCache for a field by the
background learner, with commit-time source text `T` and reference value
`V`, `normalize(apply(R, T)) = normalize(V)` holds, where `apply` takes
the match's group 1 if present else the whole match and strips it
(`bgExtracted`), and `normalize` collapses whitespace runs, trims and
case-folds (`normalizeForValidation`); patterns failing this validation or
raising `re.error` (invalid syntax) are never committed. -/
theorem C3_rule_commit_invariant (search : SearchFn) (text : String)
    (schemaForLearning : List (String × LearnCand)) (resp : RegexResp)
    (field pattern : String)
    (hcommit : (field, pattern) ∈ bgCommits search text schemaForLearning resp) :
    search pattern text ≠ .err
      ∧ ∃ cand, dictGet schemaForLearning field = some cand
          ∧ normalizeOpt (bgExtracted search pattern text)
              = normalizeForValidation cand.refValue := by
  obtain ⟨cand, hget, -, -, hvalid⟩ :=
    bgCommits_mem_spec search text schemaForLearning resp field pattern hcommit
  obtain ⟨herr, -, heqn⟩ := bgRuleValid_spec search text pattern cand.refValue hvalid
  exact ⟨herr, cand, hget, heqn⟩

/-- Witness for C3: with a concrete regex engine on which `"R1"` matches
`"T"` extracting `" V "`, the pattern `"R1"` is committed for field `"f"`
with reference value `"v"`, and the invariant holds at that input. -/
theorem C3_witness :
    (("f", "R1") ∈ bgCommits searchR1 "T" [("f", LearnCand.mk "v" (some "d"))]
        (.ok [("f", some "R1")]))
      ∧ (searchR1 "R1" "T" ≠ .err
          ∧ ∃ cand, dictGet [("f", LearnCand.mk "v" (some "d"))] "f" = some cand
              ∧ normalizeOpt (bgExtracted searchR1 "R1" "T")
                  = normalizeForValidation cand.refValue) :=
  ⟨by decide,
   C3_rule_commit_invariant searchR1 "T" [("f", LearnCand.mk "v" (some "d"))]
     (.ok [("f", some "R1")]) "f" "R1" (by decide)⟩

/-- C10: the background learner never commits a pattern whose application to
the source text is empty after normalization: commit requires the
normalized extracted value to be truthy (non-empty) in addition to
equaling the normalized reference value, so a pattern extracting only
whitespace is discarded even when the reference value also normalizes to
the empty string. -/
theorem C10_commit_requires_nonempty (search : SearchFn) (text : String)
    (schemaForLearning : List (String × LearnCand)) (resp : RegexResp)
    (field pattern : String)
    (hcommit : (field, pattern) ∈ bgCommits search text schemaForLearning resp) :
    normalizeOpt (bgExtracted search pattern text) ≠ "" := by
  obtain ⟨cand, -, -, -, hvalid⟩ :=
    bgCommits_mem_spec search text schemaForLearning resp field pattern hcommit
  exact (bgRuleValid_spec search text pattern cand.refValue hvalid).2.1

/-- Witness for C10: the concrete commit of `"R1"` for field `"f"` has a
non-empty normalized extracted value (`"v"`). -/
theorem C10_witness :
    (("f", "R1") ∈ bgCommits searchR1 "T" [("f", LearnCand.mk "V" (some "d"))]
        (.ok [("f", some "R1")]))
      ∧ normalizeOpt (bgExtracted searchR1 "R1" "T") ≠ "" :=
  ⟨by decide,
   C10_commit_requires_nonempty searchR1 "T" [("f", LearnCand.mk "V" (some "d"))]
     (.ok [("f", some "R1")]) "f" "R1" (by decide)⟩

theorem applyOneAnswer_data_self (cur kn reus : List String)
    (sf : List (String × String))
    (st : List (String × String) × List (String × LearnCand))
    (f : String) (a : FieldAnswer) (hcur : f ∈ cur) :
    dictGet (applyOneAnswer cur kn reus sf st (f, a)).1 f
      = (match a.dado with
         | some v => some v
         | none => dictGet st.1 f) := by
  dsimp only [applyOneAnswer]
  rw [if_pos hcur]
  cases a.dado with
  | none => rfl
  | some v =>
    dsimp only
    exact dictGet_dictSet_self st.1 f v

theorem applyOneAnswer_data_other (cur kn reus : List String)
    (sf : List (String × String))
    (st : List (String × String) × List (String × LearnCand))
    (g : String) (b : FieldAnswer) (f : String) (hne : g ≠ f) :
    dictGet (applyOneAnswer cur kn reus sf st (g, b)).1 f = dictGet st.1 f := by
  dsimp only [applyOneAnswer]
  by_cases hg : g ∈ cur
  · rw [if_pos hg]
    cases b.dado with
    | none => rfl
    | some v =>
      dsimp only
      exact dictGet_dictSet_ne st.1 g f v (Ne.symm hne)
  · rw [if_neg hg]

theorem foldl_applyOneAnswer_not_mem (cur kn reus : List String)
    (sf : List (String × String)) (f : String) :
    ∀ (answers : List (String × FieldAnswer))
      (st : List (String × String) × List (String × LearnCand)),
      f ∉ answers.map Prod.fst →
      dictGet (answers.foldl (applyOneAnswer cur kn reus sf) st).1 f
        = dictGet st.1 f := by
  intro answers
  induction answers with
  | nil => intro st _; rfl
  | cons ga rest ih =>
    intro st hnot
    obtain ⟨g, b⟩ := ga
    simp only [List.map_cons, List.mem_cons] at hnot
    push_neg at hnot
    rw [List.foldl_cons, ih _ hnot.2]
    exact applyOneAnswer_data_other cur kn reus sf st g b f (Ne.symm hnot.1)

theorem foldl_applyOneAnswer_mem (cur kn reus : List String)
    (sf : List (String × String)) (f : String) (a : FieldAnswer)
    (hcur : f ∈ cur) :
    ∀ (answers : List (String × FieldAnswer))
      (st : List (String × String) × List (String × LearnCand)),
      (answers.map Prod.fst).Nodup → (f, a) ∈ answers →
      dictGet (answers.foldl (applyOneAnswer cur kn reus sf) st).1 f
        = (match a.dado with
           | some v => some v
           | none => dictGet st.1 f) := by
  intro answers
  induction answers with
  | nil => intro st _ hmem; exact absurd hmem (List.not_mem_nil _)
  | cons ga rest ih =>
    intro st hnodup hmem
    obtain ⟨g, b⟩ := ga
    simp only [List.map_cons, List.nodup_cons] at hnodup
    rcases List.mem_cons.mp hmem with heq | hmem2
    · injection heq with h1 h2
      subst h1; subst h2
      rw [List.foldl_cons,
        foldl_applyOneAnswer_not_mem cur kn reus sf f rest _ hnodup.1]
      exact applyOneAnswer_data_self cur kn reus sf st f a hcur
    · have hgf : g ≠ f := by
        intro h
        subst h
        exact hnodup.1 (List.mem_map_of_mem Prod.fst hmem2)
      rw [List.foldl_cons, ih _ hnodup.2 hmem2]
      cases a.dado with
      | some v => rfl
      | none =>
        exact applyOneAnswer_data_other cur kn reus sf st g b f hgf

/-- C2 counterexample: the claim says a low-confidence answer leaves the field
unchanged (`'null'`), but with an oracle answering value `"foo"` at
confidence `"low"` for the single missing field, the extractor stores
`"foo"`: the overwrite is gated only on the value being present, not on
confidence or the null sentinel. -/
theorem C2_counterexample :
    (extractModel searchNone oracleLowFoo [] "L" [("f", "d")] "t" "smart"
        true []).data = [("f", "foo")]
      ∧ (extractModel searchNone oracleLowFoo [] "L" [("f", "d")] "t" "smart"
        true []).data ≠ [("f", "null")] := by decide

/-- C2 (amended): for every field answered by the field-inference oracle in
the fallback stage, the answer overwrites the field's value iff the raw
value is present (not JSON null / absent), regardless of confidence and of
the `"null"` string sentinel; confidence and the sentinel gate only the
learning-candidate selection. -/
theorem C2_amended (currentFields knownFields reusableFields : List String)
    (schemaFields : List (String × String)) (data : List (String × String))
    (answers : List (String × FieldAnswer)) (f : String) (a : FieldAnswer)
    (hnodup : (answers.map Prod.fst).Nodup) (hmem : (f, a) ∈ answers)
    (hcur : f ∈ currentFields) :
    (∀ v, a.dado = some v →
      dictGet (applyAnswers currentFields knownFields reusableFields
        schemaFields data answers).1 f = some v)
    ∧ (a.dado = none →
      dictGet (applyAnswers currentFields knownFields reusableFields
        schemaFields data answers).1 f = dictGet data f) := by
  have h := foldl_applyOneAnswer_mem currentFields knownFields reusableFields
    schemaFields f a hcur answers (data, []) hnodup hmem
  constructor
  · intro v hv
    rw [applyAnswers, h, hv]
  · intro hv
    rw [applyAnswers, h, hv]

/-- Witness for C2 (amended): a concrete low-confidence answer with value
`"x"` for requested field `"f"` overwrites the missing value. -/
theorem C2_witness :
    ((([("f", FieldAnswer.mk (some "x") (some "low"))].map Prod.fst).Nodup
        ∧ ("f", FieldAnswer.mk (some "x") (some "low"))
            ∈ [("f", FieldAnswer.mk (some "x") (some "low"))]
        ∧ "f" ∈ ["f"])
      ∧ dictGet (applyAnswers ["f"] [] [] [("f", "d")] [("f", "null")]
          [("f", FieldAnswer.mk (some "x") (some "low"))]).1 "f" = some "x") :=
  ⟨⟨by decide, by decide, by decide⟩,
   (C2_amended ["f"] [] [] [("f", "d")] [("f", "null")]
      [("f", FieldAnswer.mk (some "x") (some "low"))] "f"
      (FieldAnswer.mk (some "x") (some "low"))
      (by decide) (by decide) (by decide)).1 "x" rfl⟩

theorem extractModel_task_pending (search : SearchFn) (oracle : OracleFn)
    (memory : Memory) (label : String) (schemaFields : List (String × String))
    (text mode : String) (clientPresent : Bool) (reusableFields : List String)
    (t : BgTask)
    (h : (extractModel search oracle memory label schemaFields text mode
      clientPresent reusableFields).task = some t) :
    t.completed = false := by
  rw [extractModel] at h
  dsimp only at h
  repeat' split at h
  all_goals
    first
      | (injection h with h2; rw [← h2])
      | exact absurd h (by simp)

theorem processJob_task_pending (search : SearchFn) (oracle : OracleFn)
    (globalMode : String) (jobs : List Schema) (pdfs : List (String × String))
    (memory : Memory) (clientPresent : Bool) (e : PlanEntry) (t : BgTask)
    (h : (processJob search oracle globalMode jobs pdfs memory clientPresent e).2
      = some t) :
    t.completed = false := by
  rw [processJob] at h
  dsimp only at h
  split at h
  · exact absurd h (by simp)
  · exact extractModel_task_pending _ _ _ _ _ _ _ _ _ t h

theorem runModel_tasks_eq (search : SearchFn) (oracle : OracleFn) (mode : String)
    (jobs : List Schema) (pdfs : List (String × String)) (memory : Memory)
    (clientPresent : Bool) :
    (runModel search oracle mode jobs pdfs memory clientPresent).tasks
      = planSpawns search oracle mode jobs pdfs memory clientPresent := by
  rw [runModel, planSpawns]
  dsimp only
  generalize planOf mode memory jobs = plan
  suffices h : ∀ (pl : List PlanEntry) (acc : List (String × JobResult) × List BgTask),
      (pl.foldl (fun acc e =>
        (dictSet acc.1 e.schema.pdfPath
          (processJob search oracle mode jobs pdfs memory clientPresent e).1,
         acc.2 ++ ((processJob search oracle mode jobs pdfs memory clientPresent e).2).toList)) acc).2
      = acc.2 ++ pl.filterMap
          (fun e => (processJob search oracle mode jobs pdfs memory clientPresent e).2) by
    simpa using h plan ([], [])
  intro pl
  induction pl with
  | nil => intro acc; simp
  | cons e rest ih =>
    intro acc
    rw [List.foldl_cons, ih]
    rcases htask : (processJob search oracle mode jobs pdfs memory clientPresent e).2
      with _ | t
    · simp [List.filterMap_cons, htask]
    · simp [List.filterMap_cons, htask]

/-- C4 counterexample: in global mode `smart` (not `standard`), a run over two
cold jobs sharing a label spawns two background learning tasks and `run`
returns with both still pending — `run` does not await them before
returning (the API layer does, afterwards). -/
theorem C4_counterexample :
    (runModel searchNone oracleHighV "smart" [jobColdA, jobColdB]
        [("pA", "t"), ("pB", "t")] [] true).tasks.map (fun t => t.completed)
      = [false, false]
    ∧ (runModel searchNone oracleHighV "smart" [jobColdA, jobColdB]
        [("pA", "t"), ("pB", "t")] [] true).tasks ≠ [] := by decide

/-- C4 (amended): `run` collects every background-learning task handle spawned
across the whole execution plan, and returns them to its caller still
pending (un-awaited), in every mode; awaiting happens in the caller after
`run` returns. -/
theorem C4_amended (search : SearchFn) (oracle : OracleFn) (mode : String)
    (jobs : List Schema) (pdfs : List (String × String)) (memory : Memory)
    (clientPresent : Bool) :
    (runModel search oracle mode jobs pdfs memory clientPresent).tasks
      = planSpawns search oracle mode jobs pdfs memory clientPresent
    ∧ ∀ t ∈ (runModel search oracle mode jobs pdfs memory clientPresent).tasks,
        t.completed = false := by
  refine ⟨runModel_tasks_eq search oracle mode jobs pdfs memory clientPresent, ?_⟩
  intro t ht
  rw [runModel_tasks_eq search oracle mode jobs pdfs memory clientPresent,
    planSpawns] at ht
  obtain ⟨e, -, htask⟩ := List.mem_filterMap.mp ht
  exact processJob_task_pending search oracle mode jobs pdfs memory clientPresent
    e t htask

/-- Witness for C4 (amended): in the concrete two-cold-job run, the first
returned task handle is still pending. -/
theorem C4_witness :
    (BgTask.mk "L" "t" [("f", LearnCand.mk "v" (some "d"))] false
        ∈ (runModel searchNone oracleHighV "smart" [jobColdA, jobColdB]
            [("pA", "t"), ("pB", "t")] [] true).tasks)
    ∧ (BgTask.mk "L" "t" [("f", LearnCand.mk "v" (some "d"))] false).completed
        = false :=
  ⟨by decide,
   (C4_amended searchNone oracleHighV "smart" [jobColdA, jobColdB]
      [("pA", "t"), ("pB", "t")] [] true).2
     (BgTask.mk "L" "t" [("f", LearnCand.mk "v" (some "d"))] false) (by decide)⟩

theorem flatMap_append_perm {α β : Type} (l : List α) (g₁ g₂ : α → List β) :
    (l.flatMap g₁ ++ l.flatMap g₂).Perm (l.flatMap (fun a => g₁ a ++ g₂ a)) := by
  induction l with
  | nil => simp
  | cons a l ih =>
    simp only [List.flatMap_cons]
    have h1 : ((g₁ a ++ l.flatMap g₁) ++ (g₂ a ++ l.flatMap g₂)).Perm
        ((g₁ a ++ g₂ a) ++ (l.flatMap g₁ ++ l.flatMap g₂)) := by
      rw [List.append_assoc, List.append_assoc]
      refine List.Perm.append_left (g₁ a) ?_
      rw [← List.append_assoc, ← List.append_assoc]
      exact List.Perm.append_right _ List.perm_append_comm
    exact h1.trans (List.Perm.append_left _ ih)

theorem flatten_filterMap {α β : Type} (h : α → Option (List β)) :
    ∀ l : List α, (l.filterMap h).flatten = l.flatMap (fun a => (h a).getD []) := by
  intro l
  induction l with
  | nil => simp
  | cons a l ih =>
    rw [List.filterMap_cons]
    rcases ha : h a with _ | b
    · simp [ha, ih]
    · simp [ha, ih]

theorem groupBy_perm {α κ : Type} [DecidableEq κ] (f : α → κ) :
    ∀ l : List α,
      ((dedupFirst (l.map f)).flatMap
        (fun k => l.filter (fun x => f x = k))).Perm l := by
  have H : ∀ (n : Nat) (l : List α), l.length ≤ n →
      ((dedupFirst (l.map f)).flatMap
        (fun k => l.filter (fun x => f x = k))).Perm l := by
    intro n
    induction n with
    | zero =>
      intro l hl
      have : l = [] := List.eq_nil_of_length_eq_zero (Nat.le_zero.mp hl)
      subst this
      simp [dedupFirst, dedupFirstAux]
    | succ n ih =>
      intro l hl
      match l with
      | [] => simp [dedupFirst, dedupFirstAux]
      | x :: xs =>
        rw [List.map_cons, dedupFirst_cons]
        have hmapfilter : (xs.map f).filter (fun k => k ≠ f x)
            = (xs.filter (fun y => f y ≠ f x)).map f := by
          rw [List.filter_map]
          rfl
        rw [hmapfilter]
        set xsf := xs.filter (fun y => f y ≠ f x) with hxsf
        rw [List.flatMap_cons]
        have hhead : (x :: xs).filter (fun y => f y = f x)
            = x :: xs.filter (fun y => f y = f x) := by
          simp [List.filter_cons]
        have htail : (dedupFirst (xsf.map f)).flatMap
              (fun k => (x :: xs).filter (fun y => f y = k))
            = (dedupFirst (xsf.map f)).flatMap
              (fun k => xsf.filter (fun y => f y = k)) := by
          refine List.flatMap_congr ?_
          intro k hk
          have hkne : k ≠ f x := by
            have hk2 := (mem_dedupFirst k _).mp hk
            obtain ⟨y, hy, hyk⟩ := List.mem_map.mp hk2
            have := List.of_mem_filter hy
            simp only [decide_eq_true_eq] at this
            exact hyk ▸ this
          have hxk : ¬f x = k := fun h => hkne h.symm
          have h1 : (x :: xs).filter (fun y => f y = k)
              = xs.filter (fun y => f y = k) := by
            simp [List.filter_cons, hxk]
          have h2 : xsf.filter (fun y => f y = k)
              = xs.filter (fun y => f y = k) := by
            rw [hxsf, List.filter_filter]
            refine List.filter_congr ?_
            intro y _
            by_cases hyk : f y = k
            · simp [hyk, hkne]
            · simp [hyk]
          rw [h1, h2]
        rw [htail]
        have hlen : xsf.length ≤ n := by
          have h1 := List.length_filter_le (fun y => decide (f y ≠ f x)) xs
          have h2 : xs.length ≤ n := Nat.le_of_succ_le_succ hl
          exact Nat.le_trans (hxsf ▸ h1) h2
        have hperm := ih xsf hlen
        rw [hhead]
        have hfinal : (x :: xs.filter (fun y => f y = f x) ++ xsf).Perm (x :: xs) := by
          refine List.Perm.cons x ?_
          have := List.filter_append_perm (fun y => decide (f y = f x)) xs
          have hxsf2 : xsf = xs.filter (fun y => !decide (f y = f x)) := by
            rw [hxsf]
            refine List.filter_congr ?_
            intro y _
            simp
          rw [hxsf2]
          exact this
        refine List.Perm.trans ?_ hfinal
        exact List.Perm.cons x (List.Perm.append_left _ hperm)
  intro l
  exact H l.length l (Nat.le_refl _)

theorem classifyBuckets_perm (mode : String) (memory : Memory)
    (jobs : List Schema) :
    ((classifyBuckets mode memory jobs).1
      ++ (classifyBuckets mode memory jobs).2.1
      ++ (classifyBuckets mode memory jobs).2.2.flatten).Perm jobs := by
  by_cases hstd : mode = "standard"
  · rw [classifyBuckets, if_pos hstd]
    simp
  · rw [classifyBuckets, if_neg hstd]
    dsimp only
    rw [flatten_filterMap]
    have hsecond : ((groupedJobs mode memory jobs).flatMap
        (fun kg => kg.2.map (fun d => d.schema))).Perm jobs := by
      rw [groupedJobs]
      rw [List.flatMap_map]
      dsimp only
      rw [← List.map_flatMap]
      have hperm := (groupBy_perm JobDesc.jid
        (jobs.map (mkDesc mode memory))).map (fun d => d.schema)
      refine List.Perm.trans hperm ?_
      rw [List.map_map]
      have : ((fun d => d.schema) ∘ mkDesc mode memory) = fun s => s := by
        funext s
        rfl
      rw [this]
      rw [show (List.map (fun s => s) jobs) = jobs from List.map_id jobs]
    refine List.Perm.trans ?_ hsecond
    have h1 := flatMap_append_perm (groupedJobs mode memory jobs)
      (fun kg => if groupGoesWarm kg.2 then kg.2.map (fun d => d.schema) else [])
      (fun kg => if groupGoesWarm kg.2 then []
        else if kg.2.length = 1 then kg.2.map (fun d => d.schema) else [])
    have h2 := flatMap_append_perm (groupedJobs mode memory jobs)
      (fun kg => (if groupGoesWarm kg.2 then kg.2.map (fun d => d.schema) else [])
        ++ (if groupGoesWarm kg.2 then []
          else if kg.2.length = 1 then kg.2.map (fun d => d.schema) else []))
      (fun kg => (if groupGoesWarm kg.2 then none
        else if kg.2.length = 1 then none
        else some (kg.2.map (fun d => d.schema))).getD [])
    refine List.Perm.trans (List.Perm.append_right _ h1) (List.Perm.trans h2 ?_)
    have hpt : ∀ kg ∈ groupedJobs mode memory jobs,
        ((if groupGoesWarm kg.2 then kg.2.map (fun d => d.schema) else [])
          ++ (if groupGoesWarm kg.2 then []
            else if kg.2.length = 1 then kg.2.map (fun d => d.schema) else []))
        ++ (if groupGoesWarm kg.2 then none
            else if kg.2.length = 1 then none
            else some (kg.2.map (fun d => d.schema))).getD []
        = kg.2.map (fun d => d.schema) := by
      intro kg _
      by_cases hw : groupGoesWarm kg.2
      · simp [hw]
      · by_cases h1 : kg.2.length = 1
        · simp [hw, h1]
        · simp [hw, h1]
    rw [List.flatMap_congr hpt]


/-- C6: every submitted job is assigned to exactly one of the Warm, Orphan and
Group buckets: the concatenation of the Warm bucket, the Orphan bucket and
the flattened Group buckets is a permutation of the submitted job list (in
`standard` mode the whole batch forms the single Group bucket). -/
theorem C6_classification_completeness (mode : String) (memory : Memory)
    (jobs : List Schema) :
    ((classifyBuckets mode memory jobs).1
      ++ (classifyBuckets mode memory jobs).2.1
      ++ (classifyBuckets mode memory jobs).2.2.flatten).Perm jobs :=
  classifyBuckets_perm mode memory jobs

theorem perm_insertOrd {α : Type} (r : α → α → Bool) (x : α) :
    ∀ l : List α, (insertOrd r x l).Perm (x :: l) := by
  intro l
  induction l with
  | nil => rw [insertOrd]
  | cons y ys ih =>
    rw [insertOrd]
    by_cases h : r x y = true
    · rw [if_pos h]
    · rw [if_neg h]
      exact List.Perm.trans (List.Perm.cons y ih) (List.Perm.swap x y ys)

theorem perm_sortOrd {α : Type} (r : α → α → Bool) :
    ∀ l : List α, (sortOrd r l).Perm l := by
  intro l
  induction l with
  | nil => exact List.Perm.refl _
  | cons x xs ih =>
    have : sortOrd r (x :: xs) = insertOrd r x (sortOrd r xs) := rfl
    rw [this]
    exact List.Perm.trans (perm_insertOrd r x (sortOrd r xs)) (List.Perm.cons x ih)

theorem mem_insertOrd {α : Type} (r : α → α → Bool) (x a : α) (l : List α) :
    a ∈ insertOrd r x l ↔ a = x ∨ a ∈ l := by
  rw [(perm_insertOrd r x l).mem_iff]
  exact List.mem_cons

theorem pairwise_insertOrd {α : Type} (r : α → α → Bool)
    (htot : ∀ a b, r a b = true ∨ r b a = true)
    (htrans : ∀ a b c, r a b = true → r b c = true → r a c = true) (x : α) :
    ∀ l : List α, l.Pairwise (fun a b => r a b = true) →
      (insertOrd r x l).Pairwise (fun a b => r a b = true) := by
  intro l
  induction l with
  | nil => intro _; simp [insertOrd]
  | cons y ys ih =>
    intro hl
    rw [List.pairwise_cons] at hl
    rw [insertOrd]
    by_cases h : r x y = true
    · rw [if_pos h]
      refine List.Pairwise.cons ?_ (List.Pairwise.cons hl.1 hl.2)
      intro z hz
      rcases List.mem_cons.mp hz with rfl | hz2
      · exact h
      · exact htrans x y z h (hl.1 z hz2)
    · rw [if_neg h]
      refine List.Pairwise.cons ?_ (ih hl.2)
      intro z hz
      rcases (mem_insertOrd r x z ys).mp hz with rfl | hz2
      · rcases htot z y with h2 | h2
        · exact absurd h2 h
        · exact h2
      · exact hl.1 z hz2

theorem pairwise_sortOrd {α : Type} (r : α → α → Bool)
    (htot : ∀ a b, r a b = true ∨ r b a = true)
    (htrans : ∀ a b c, r a b = true → r b c = true → r a c = true) :
    ∀ l : List α, (sortOrd r l).Pairwise (fun a b => r a b = true) := by
  intro l
  induction l with
  | nil => exact List.Pairwise.nil
  | cons x xs ih =>
    have : sortOrd r (x :: xs) = insertOrd r x (sortOrd r xs) := rfl
    rw [this]
    exact pairwise_insertOrd r htot htrans x (sortOrd r xs) ih

theorem countOf_standard (jobs : List Schema) (s : Schema) :
    countOf "standard" jobs s = 0 := by
  rw [countOf]
  have : ∀ f, reusableB "standard" jobs s.label f = false := by
    intro f
    rw [reusableB]
    simp
  rw [List.filter_congr (fun f _ => this f)]
  simp

theorem countOf_eq_of_jobIdOf_eq (mode : String) (jobs : List Schema)
    (hsmart : mode ≠ "smart") (a b : Schema)
    (h : jobIdOf mode a = jobIdOf mode b) :
    countOf mode jobs a = countOf mode jobs b := by
  rw [jobIdOf, if_neg hsmart, jobIdOf, if_neg hsmart] at h
  injection h with h1 h2
  rw [countOf, countOf, h1, h2]

/-- C7: in every non-`pro` mode, the Group-bucket jobs are executed as one
strictly sequential sequence, and for any two positions in that sequence
whose jobs share a `job_id`, the job with the strictly larger
reusable-field count is scheduled no later than the other (in `smart` mode
the sequence is globally sorted by descending count; in any other
non-`pro` mode two jobs with the same `job_id` always have equal counts,
so the property holds vacuously). -/
theorem C7_group_stage_order (mode : String) (memory : Memory)
    (jobs : List Schema) (hpro : mode ≠ "pro")
    (i j : Fin (groupStageOrder mode memory jobs).length)
    (hjid : jobIdOf mode ((groupStageOrder mode memory jobs).get i)
      = jobIdOf mode ((groupStageOrder mode memory jobs).get j))
    (hcount : countOf mode jobs ((groupStageOrder mode memory jobs).get j)
      < countOf mode jobs ((groupStageOrder mode memory jobs).get i)) :
    (i : Nat) ≤ (j : Nat) := by
  by_cases hsmart : mode = "smart"
  · subst hsmart
    by_contra hij
    push_neg at hij
    have horder : groupStageOrder "smart" memory jobs
        = sortOrd (fun a b =>
            decide (countOf "smart" jobs b ≤ countOf "smart" jobs a))
          ((classifyBuckets "smart" memory jobs).2.2.flatten) := by
      rw [groupStageOrder, if_neg (by decide), seqJobsNonPro, if_pos rfl]
    have hpw := pairwise_sortOrd
      (fun a b => decide (countOf "smart" jobs b ≤ countOf "smart" jobs a))
      (fun a b => by
        rcases Nat.le_total (countOf "smart" jobs b) (countOf "smart" jobs a)
          with h | h
        · exact Or.inl (by simpa using h)
        · exact Or.inr (by simpa using h))
      (fun a b c hab hbc => by
        simp only [decide_eq_true_eq] at hab hbc ⊢
        exact Nat.le_trans hbc hab)
      ((classifyBuckets "smart" memory jobs).2.2.flatten)
    rw [← horder] at hpw
    have hji : j < i := by
      rw [Fin.lt_def]
      exact hij
    have hr := List.pairwise_iff_get.mp hpw j i hji
    simp only [decide_eq_true_eq] at hr
    exact absurd hcount (Nat.not_lt.mpr hr)
  · have heq := countOf_eq_of_jobIdOf_eq mode jobs hsmart _ _ hjid
    rw [heq] at hcount
    exact absurd hcount (Nat.lt_irrefl _)

/-- Witness for C7: three cold same-label jobs in `smart` mode; the job at
position 0 of the sequential order has count 2, the job at position 2 has
count 1, and the theorem yields 0 ≤ 2. -/
theorem C7_witness :
    countOf "smart" [jobA1, jobAB2, jobAB3]
        ((groupStageOrder "smart" [] [jobA1, jobAB2, jobAB3]).get ⟨2, by decide⟩)
      < countOf "smart" [jobA1, jobAB2, jobAB3]
        ((groupStageOrder "smart" [] [jobA1, jobAB2, jobAB3]).get ⟨0, by decide⟩)
    ∧ ((0 : Nat) ≤ (2 : Nat)) :=
  ⟨by decide,
   C7_group_stage_order "smart" [] [jobA1, jobAB2, jobAB3] (by decide)
     ⟨0, by decide⟩ ⟨2, by decide⟩ (by decide) (by decide)⟩

theorem mem_canonSet (a : String) (l : List String) :
    a ∈ canonSet l ↔ a ∈ l := by
  rw [canonSet, (perm_sortOrd strLeb (dedupFirst l)).mem_iff, mem_dedupFirst]

theorem warm_eq_of_jid_eq (mode : String) (hsmart : mode ≠ "smart")
    (memory : Memory) (a b : Schema)
    (h : jobIdOf mode a = jobIdOf mode b) :
    isWarmB memory a = isWarmB memory b := by
  rw [jobIdOf, if_neg hsmart, jobIdOf, if_neg hsmart] at h
  injection h with hlab hcs
  have hmemiff : ∀ f, f ∈ a.fields.map Prod.fst ↔ f ∈ b.fields.map Prod.fst := by
    intro f
    rw [← mem_canonSet, hcs, mem_canonSet]
  rw [Bool.eq_iff_iff, isWarmB, isWarmB, List.all_eq_true, List.all_eq_true]
  constructor
  · intro ha f hf
    rw [← hlab]
    exact ha f ((mem_dedupFirst f _).mpr ((hmemiff f).mpr
      ((mem_dedupFirst f _).mp hf)))
  · intro hb f hf
    have := hb f ((mem_dedupFirst f _).mpr ((hmemiff f).mp
      ((mem_dedupFirst f _).mp hf)))
    rw [← hlab] at this
    exact this

theorem groupedJobs_mem_spec (mode : String) (memory : Memory)
    (jobs : List Schema) (k : JobId) (g : List JobDesc)
    (h : (k, g) ∈ groupedJobs mode memory jobs) :
    g = (jobs.map (mkDesc mode memory)).filter (fun d => decide (d.jid = k))
      ∧ g ≠ [] := by
  rw [groupedJobs] at h
  obtain ⟨kq, hkq, heq⟩ := List.mem_map.mp h
  have h1 : kq = k := congrArg Prod.fst heq
  have h2 : (jobs.map (mkDesc mode memory)).filter
      (fun d => decide (d.jid = kq)) = g := congrArg Prod.snd heq
  constructor
  · rw [← h1]
    exact h2.symm
  · have hk2 := (mem_dedupFirst kq _).mp hkq
    obtain ⟨d, hd, hdk⟩ := List.mem_map.mp hk2
    have hdmem : d ∈ g := by
      rw [← h2]
      exact List.mem_filter.mpr ⟨hd, by simp [hdk]⟩
    exact List.ne_nil_of_mem hdmem

/-- C5 counterexample: in `smart` mode with a cache covering field `"a"` of
label `"L"`, the batch `[jobA1, jobAB2]` forms one label group whose first
member (`jobA1`) is warm, so the whole group is classified Warm even
though `jobAB2` is not warm (field `"b"` has no rule) — refuting "a group
containing any non-warm member is never classified Warm". -/
theorem C5_counterexample :
    isWarmB memA jobAB2 = false
      ∧ jobAB2 ∈ (classifyBuckets "smart" memA [jobA1, jobAB2]).1 := by decide

/-- C5 (amended): classification tests only the first member of each group
(`is_warm = group[0]['is_warm']`).  In every non-`standard`, non-`smart`
mode the `job_id` is the pair of label and field set, so all members of a
group agree on warmness and the group is Warm-classified iff every member
is warm; in `smart` mode (grouping by bare label) a group whose first
member is warm is classified Warm even when another member is cold. -/
theorem C5_amended (mode : String) (memory : Memory) (jobs : List Schema)
    (hstd : mode ≠ "standard") (hsmart : mode ≠ "smart")
    (k : JobId) (g : List JobDesc)
    (hmem : (k, g) ∈ groupedJobs mode memory jobs) :
    groupGoesWarm g = true ↔ ∀ d ∈ g, d.warm = true := by
  obtain ⟨hg, hne⟩ := groupedJobs_mem_spec mode memory jobs k g hmem
  match g, hne with
  | d0 :: rest, _ =>
    have hmemg : ∀ d, d ∈ d0 :: rest →
        ∃ s ∈ jobs, d = mkDesc mode memory s ∧ d.jid = k := by
      intro d hd
      rw [hg] at hd
      obtain ⟨hds, hjid⟩ := List.mem_filter.mp hd
      obtain ⟨s, hs, hsd⟩ := List.mem_map.mp hds
      exact ⟨s, hs, hsd.symm, by simpa using hjid⟩
    rw [groupGoesWarm]
    constructor
    · intro hw d hd
      obtain ⟨s, -, hsd, hjd⟩ := hmemg d hd
      obtain ⟨s0, -, hs0, hj0⟩ := hmemg d0 (List.mem_cons_self _ _)
      have hjj : jobIdOf mode s = jobIdOf mode s0 := by
        have h1 : (mkDesc mode memory s).jid = jobIdOf mode s := rfl
        have h2 : (mkDesc mode memory s0).jid = jobIdOf mode s0 := rfl
        rw [← h1, ← h2, ← hsd, ← hs0, hjd, hj0]
      have hww := warm_eq_of_jid_eq mode hsmart memory s s0 hjj
      have hda : d.warm = isWarmB memory s := by rw [hsd]; rfl
      have hd0a : d0.warm = isWarmB memory s0 := by rw [hs0]; rfl
      rw [hda, hww, ← hd0a]
      exact hw
    · intro hall
      exact hall d0 (List.mem_cons_self _ _)

/-- Witness for C5 (amended): in `pro` mode with the same cache, `jobA1` and
`jobAB2` have different field sets and hence different `job_id`s; the
group of `jobA1` is a singleton whose classification agrees with
all-members warmness. -/
theorem C5_witness :
    (("pro" : String) ≠ "standard" ∧ ("pro" : String) ≠ "smart"
      ∧ (JobId.lblFields "L" ["a"],
          [mkDesc "pro" memA jobA1]) ∈ groupedJobs "pro" memA [jobA1, jobAB2])
    ∧ (groupGoesWarm [mkDesc "pro" memA jobA1] = true
        ↔ ∀ d ∈ [mkDesc "pro" memA jobA1], d.warm = true) :=
  ⟨⟨by decide, by decide, by decide⟩,
   C5_amended "pro" memA [jobA1, jobAB2] (by decide) (by decide)
     (JobId.lblFields "L" ["a"]) [mkDesc "pro" memA jobA1] (by decide)⟩

theorem group_key_of_mem (mode : String) (memory : Memory) (jobs : List Schema)
    (kg : JobId × List JobDesc) (s : Schema)
    (hkg : kg ∈ groupedJobs mode memory jobs)
    (hs : s ∈ kg.2.map (fun d => d.schema)) :
    kg.1 = jobIdOf mode s
    ∧ kg.2 = (jobs.map (mkDesc mode memory)).filter
        (fun d => decide (d.jid = jobIdOf mode s)) := by
  obtain ⟨hg, -⟩ := groupedJobs_mem_spec mode memory jobs kg.1 kg.2
    (by simpa using hkg)
  obtain ⟨d, hd, hds⟩ := List.mem_map.mp hs
  rw [hg] at hd
  obtain ⟨hdds, hdjid⟩ := List.mem_filter.mp hd
  obtain ⟨sq, hsq, hsqd⟩ := List.mem_map.mp hdds
  have hdj : d.jid = jobIdOf mode s := by
    rw [← hsqd] at hds ⊢
    have hss : sq = s := hds
    rw [hss]
    rfl
  have hk : kg.1 = jobIdOf mode s := by
    simp only [decide_eq_true_eq] at hdjid
    rw [← hdjid, hdj]
  refine ⟨hk, ?_⟩
  rw [hg, hk]

theorem warm_bucket_spec (mode : String) (memory : Memory) (jobs : List Schema)
    (s : Schema) (hstd : mode ≠ "standard")
    (hW : s ∈ (classifyBuckets mode memory jobs).1) :
    groupGoesWarm ((jobs.map (mkDesc mode memory)).filter
      (fun d => decide (d.jid = jobIdOf mode s))) = true := by
  rw [classifyBuckets, if_neg hstd] at hW
  dsimp only at hW
  obtain ⟨kg, hkg, hs⟩ := List.mem_flatMap.mp hW
  by_cases hw : groupGoesWarm kg.2 = true
  · rw [if_pos hw] at hs
    obtain ⟨-, hgrp⟩ := group_key_of_mem mode memory jobs kg s hkg hs
    rw [← hgrp]
    exact hw
  · rw [if_neg hw] at hs
    exact absurd hs (List.not_mem_nil s)

theorem not_warm_and_orphan (mode : String) (memory : Memory)
    (jobs : List Schema) (s : Schema) (hstd : mode ≠ "standard")
    (hW : s ∈ (classifyBuckets mode memory jobs).1)
    (hO : s ∈ (classifyBuckets mode memory jobs).2.1) : False := by
  have h1 := warm_bucket_spec mode memory jobs s hstd hW
  rw [classifyBuckets, if_neg hstd] at hO
  dsimp only at hO
  obtain ⟨kg, hkg, hs⟩ := List.mem_flatMap.mp hO
  by_cases hw : groupGoesWarm kg.2 = true
  · rw [if_pos hw] at hs
    exact absurd hs (List.not_mem_nil s)
  · rw [if_neg hw] at hs
    by_cases hlen : kg.2.length = 1
    · rw [if_pos hlen] at hs
      obtain ⟨-, hgrp⟩ := group_key_of_mem mode memory jobs kg s hkg hs
      rw [hgrp] at hw
      exact hw h1
    · rw [if_neg hlen] at hs
      exact absurd hs (List.not_mem_nil s)

theorem not_warm_and_teacher (mode : String) (memory : Memory)
    (jobs : List Schema) (s : Schema) (hstd : mode ≠ "standard")
    (hW : s ∈ (classifyBuckets mode memory jobs).1)
    (hT : s ∈ (classifyBuckets mode memory jobs).2.2.flatten) : False := by
  have h1 := warm_bucket_spec mode memory jobs s hstd hW
  rw [classifyBuckets, if_neg hstd] at hT
  dsimp only at hT
  obtain ⟨L, hL, hsL⟩ := List.mem_flatten.mp hT
  obtain ⟨kg, hkg, hLeq⟩ := List.mem_filterMap.mp hL
  by_cases hw : groupGoesWarm kg.2 = true
  · rw [if_pos hw] at hLeq
    exact absurd hLeq (by simp)
  · rw [if_neg hw] at hLeq
    by_cases hlen : kg.2.length = 1
    · rw [if_pos hlen] at hLeq
      exact absurd hLeq (by simp)
    · rw [if_neg hlen] at hLeq
      have hLs : kg.2.map (fun d => d.schema) = L := Option.some.inj hLeq
      rw [← hLs] at hsL
      obtain ⟨-, hgrp⟩ := group_key_of_mem mode memory jobs kg s hkg hsL
      rw [hgrp] at hw
      exact hw h1

theorem mem_groupStageOrder (mode : String) (memory : Memory)
    (jobs : List Schema) (s : Schema)
    (h : s ∈ groupStageOrder mode memory jobs) :
    s ∈ (classifyBuckets mode memory jobs).2.2.flatten := by
  rw [groupStageOrder] at h
  by_cases hpro : mode = "pro"
  · rw [if_pos hpro, seqJobsPro] at h
    obtain ⟨g, hg, hsg⟩ := List.mem_flatMap.mp h
    exact List.mem_flatten.mpr
      ⟨g, (perm_sortOrd _ _).mem_iff.mp hg, (perm_sortOrd _ _).mem_iff.mp hsg⟩
  · rw [if_neg hpro, seqJobsNonPro] at h
    by_cases hsm : mode = "smart"
    · rw [if_pos hsm] at h
      exact (perm_sortOrd _ _).mem_iff.mp h
    · rw [if_neg hsm] at h
      exact h

/-- C1 counterexample: `jobF` is warm (its label's cached rules cover its only
field), yet with an engine on which the cached pattern fails to match the
text, processing the job makes one field-inference oracle call — refuting
"zero oracle calls" (in standard effective mode only the learning task is
suppressed, not the oracle fallback). -/
theorem C1_counterexample :
    isWarmB memF jobF = true
      ∧ (runModel searchNone oracleHighV "smart" [jobF] [("d1", "t")] memF
          true).results.map (fun r => r.llmDataCalls) = [1] := by decide

/-- C1 (amended): a job placed in the Warm bucket is scheduled with effective
mode forced to `standard`, and processing makes zero field-inference
oracle calls provided the cached rules actually resolve every field of
the schema on the job's text; a warm job whose cached pattern fails to
match still triggers one oracle call. -/
theorem C1_amended :
    (∀ (mode : String) (memory : Memory) (jobs : List Schema) (s : Schema),
      s ∈ (classifyBuckets mode memory jobs).1 →
      ∀ e ∈ planOf mode memory jobs, e.schema = s → e.effMode = "standard")
    ∧ (∀ (search : SearchFn) (oracle : OracleFn) (memory : Memory)
        (label : String) (schemaFields : List (String × String)) (text : String)
        (mode : String) (clientPresent : Bool) (reus : List String),
      rulesResolveAll search memory label schemaFields text = true →
      (extractModel search oracle memory label schemaFields text mode
        clientPresent reus).llmDataCalls = 0) := by
  constructor
  · intro mode memory jobs s hW e he hes
    by_cases hstd : mode = "standard"
    · rw [classifyBuckets, if_pos hstd] at hW
      exact absurd hW (List.not_mem_nil s)
    · rw [planOf] at he
      rcases List.mem_append.mp he with h12 | h3
      · rcases List.mem_append.mp h12 with h1 | h2
        · obtain ⟨sq, -, heq⟩ := List.mem_map.mp h1
          rw [← heq]
        · obtain ⟨sq, hsq, heq⟩ := List.mem_map.mp h2
          exfalso
          refine not_warm_and_orphan mode memory jobs s hstd hW ?_
          rw [← hes, ← heq]
          exact hsq
      · obtain ⟨sq, hsq, heq⟩ := List.mem_map.mp h3
        exfalso
        refine not_warm_and_teacher mode memory jobs s hstd hW ?_
        refine mem_groupStageOrder mode memory jobs s ?_
        rw [← hes, ← heq]
        exact hsq
  · intro search oracle memory label schemaFields text mode clientPresent reus hres
    rw [rulesResolveAll] at hres
    rw [extractModel]
    dsimp only at hres ⊢
    rw [Bool.not_eq_true'] at hres
    rw [if_neg (by rw [hres]; exact Bool.false_ne_true)]

/-- Witness for C1 (amended): with a single warm job in `smart` mode, the only
plan entry carries effective mode `standard`; and with an engine on which
the cached pattern does match, the extractor makes zero oracle calls. -/
theorem C1_witness :
    ((jobF ∈ (classifyBuckets "smart" memF [jobF]).1
        ∧ PlanEntry.mk jobF "standard" false ∈ planOf "smart" memF [jobF]
        ∧ (PlanEntry.mk jobF "standard" false).schema = jobF)
      ∧ (PlanEntry.mk jobF "standard" false).effMode = "standard")
    ∧ (rulesResolveAll searchX memF "L" [("f", "desc")] "t" = true
      ∧ (extractModel searchX oracleHighV memF "L" [("f", "desc")] "t"
          "standard" true []).llmDataCalls = 0) :=
  ⟨⟨⟨by decide, by decide, by decide⟩,
    C1_amended.1 "smart" memF [jobF] jobF (by decide)
      (PlanEntry.mk jobF "standard" false) (by decide) (by decide)⟩,
   ⟨by decide,
    C1_amended.2 searchX oracleHighV memF "L" [("f", "desc")] "t" "standard"
      true [] (by decide)⟩⟩

theorem applyOneAnswer_data_indep (cur kn reusA reusB : List String)
    (sf : List (String × String))
    (stA stB : List (String × String) × List (String × LearnCand))
    (fa : String × FieldAnswer) (h : stA.1 = stB.1) :
    (applyOneAnswer cur kn reusA sf stA fa).1
      = (applyOneAnswer cur kn reusB sf stB fa).1 := by
  dsimp only [applyOneAnswer]
  by_cases hc : fa.1 ∈ cur
  · rw [if_pos hc, if_pos hc]
    cases fa.2.dado with
    | none => exact h
    | some v =>
      dsimp only
      rw [h]
  · rw [if_neg hc, if_neg hc]
    exact h

theorem applyAnswers_data_indep (cur kn reusA reusB : List String)
    (sf : List (String × String)) :
    ∀ (answers : List (String × FieldAnswer))
      (stA stB : List (String × String) × List (String × LearnCand)),
      stA.1 = stB.1 →
      (answers.foldl (applyOneAnswer cur kn reusA sf) stA).1
        = (answers.foldl (applyOneAnswer cur kn reusB sf) stB).1 := by
  intro answers
  induction answers with
  | nil => intro stA stB h; exact h
  | cons fa rest ih =>
    intro stA stB h
    rw [List.foldl_cons, List.foldl_cons]
    exact ih _ _ (applyOneAnswer_data_indep cur kn reusA reusB sf stA stB fa h)

theorem extractModel_indep (search : SearchFn) (oracle : OracleFn)
    (memory : Memory) (label : String) (sf : List (String × String))
    (text : String) (mA mB : String) (clientPresent : Bool)
    (rA rB : List String) :
    (extractModel search oracle memory label sf text mA clientPresent rA).data
        = (extractModel search oracle memory label sf text mB clientPresent rB).data
    ∧ (extractModel search oracle memory label sf text mA clientPresent
        rA).llmDataCalls
        = (extractModel search oracle memory label sf text mB clientPresent
          rB).llmDataCalls := by
  rw [extractModel, extractModel]
  dsimp only
  set keys := dedupFirst (sf.map Prod.fst) with hkeys
  set data1 := applyKnownRules search text (keys.map (fun f => (f, "null")))
    (knownRulesOf memory label keys) with hdata1
  by_cases hany : (data1.any (fun p => p.2 = "null")) = true
  · rw [if_pos hany, if_pos hany]
    by_cases hcl : clientPresent = true
    · rw [if_pos hcl, if_pos hcl]
      dsimp only
      constructor
      · rcases ho : oracle text ((data1.filter (fun p => p.2 = "null")).map
            Prod.fst |>.filterMap (fun f =>
              (dictGet sf f).map (fun d => (f, d)))) with ans | msg
        · simp only [ho]
          exact applyAnswers_data_indep _ _ rA rB sf ans _ _ rfl
        · simp only [ho]
      · rfl
    · rw [if_neg hcl, if_neg hcl]
      exact ⟨rfl, rfl⟩
  · rw [if_neg hany, if_neg hany]
    exact ⟨rfl, rfl⟩

theorem processJob_result (search : SearchFn) (oracle : OracleFn)
    (globalMode : String) (jobs : List Schema) (pdfs : List (String × String))
    (memory : Memory) (clientPresent : Bool) (e : PlanEntry) :
    (processJob search oracle globalMode jobs pdfs memory clientPresent e).1
      = resultOf search oracle pdfs memory clientPresent e.schema := by
  rw [processJob, resultOf]
  dsimp only
  rcases hp : dictGet pdfs e.schema.pdfPath with _ | text
  · rfl
  · dsimp only
    have h := extractModel_indep search oracle memory e.schema.label
      e.schema.fields text
      (if ¬clientPresent = true ∧ e.effMode ≠ "standard" then "standard"
        else e.effMode) "standard" clientPresent
      (if e.useReusable = true
        then reusableFieldsOf globalMode jobs e.schema.label else []) []
    rw [JobResult.mk.injEq]
    exact ⟨rfl, rfl, h.1, h.2, rfl⟩

theorem planOf_schema_mem (mode : String) (memory : Memory) (jobs : List Schema)
    (e : PlanEntry) (he : e ∈ planOf mode memory jobs) : e.schema ∈ jobs := by
  have hperm := classifyBuckets_perm mode memory jobs
  rw [planOf] at he
  rcases List.mem_append.mp he with h12 | h3
  · rcases List.mem_append.mp h12 with h1 | h2
    · obtain ⟨sq, hsq, heq⟩ := List.mem_map.mp h1
      rw [← heq]
      exact hperm.mem_iff.mp (List.mem_append_left _ (List.mem_append_left _ hsq))
    · obtain ⟨sq, hsq, heq⟩ := List.mem_map.mp h2
      rw [← heq]
      exact hperm.mem_iff.mp
        (List.mem_append_left _ (List.mem_append_right _ hsq))
  · obtain ⟨sq, hsq, heq⟩ := List.mem_map.mp h3
    rw [← heq]
    exact hperm.mem_iff.mp
      (List.mem_append_right _ (mem_groupStageOrder mode memory jobs sq hsq))

theorem mem_groupStageOrder_of_flatten (mode : String) (memory : Memory)
    (jobs : List Schema) (s : Schema)
    (h : s ∈ (classifyBuckets mode memory jobs).2.2.flatten) :
    s ∈ groupStageOrder mode memory jobs := by
  rw [groupStageOrder]
  by_cases hpro : mode = "pro"
  · rw [if_pos hpro, seqJobsPro]
    obtain ⟨g, hg, hsg⟩ := List.mem_flatten.mp h
    exact List.mem_flatMap.mpr
      ⟨g, (perm_sortOrd _ _).mem_iff.mpr hg, (perm_sortOrd _ _).mem_iff.mpr hsg⟩
  · rw [if_neg hpro, seqJobsNonPro]
    by_cases hsm : mode = "smart"
    · rw [if_pos hsm]
      exact (perm_sortOrd _ _).mem_iff.mpr h
    · rw [if_neg hsm]
      exact h

theorem planOf_mem_of_schema (mode : String) (memory : Memory)
    (jobs : List Schema) (s : Schema) (hs : s ∈ jobs) :
    ∃ e ∈ planOf mode memory jobs, e.schema = s := by
  have hperm := classifyBuckets_perm mode memory jobs
  have hmem := hperm.mem_iff.mpr hs
  rw [planOf]
  rcases List.mem_append.mp hmem with h12 | h3
  · rcases List.mem_append.mp h12 with h1 | h2
    · refine ⟨⟨s, "standard", false⟩, ?_, rfl⟩
      exact List.mem_append_left _ (List.mem_append_left _
        (List.mem_map_of_mem _ h1))
    · refine ⟨⟨s, mode, true⟩, ?_, rfl⟩
      exact List.mem_append_left _ (List.mem_append_right _
        (List.mem_map_of_mem _ h2))
  · refine ⟨⟨s, mode, true⟩, ?_, rfl⟩
    exact List.mem_append_right _ (List.mem_map_of_mem _
      (mem_groupStageOrder_of_flatten mode memory jobs s h3))

theorem runFold_lookup_not_mem (search : SearchFn) (oracle : OracleFn)
    (mode : String) (jobs : List Schema) (pdfs : List (String × String))
    (memory : Memory) (clientPresent : Bool) :
    ∀ (pl : List PlanEntry) (acc : List (String × JobResult) × List BgTask)
      (p : String), (∀ e ∈ pl, e.schema.pdfPath ≠ p) →
      dictGet (pl.foldl (fun acc e =>
        (dictSet acc.1 e.schema.pdfPath
          (processJob search oracle mode jobs pdfs memory clientPresent e).1,
         acc.2 ++ ((processJob search oracle mode jobs pdfs memory clientPresent
           e).2).toList)) acc).1 p = dictGet acc.1 p := by
  intro pl
  induction pl with
  | nil => intro acc p _; rfl
  | cons e rest ih =>
    intro acc p hnot
    rw [List.foldl_cons, ih _ p (fun eq heq => hnot eq (List.mem_cons_of_mem _ heq))]
    exact dictGet_dictSet_ne acc.1 e.schema.pdfPath p _
      (fun h => hnot e (List.mem_cons_self _ _) h.symm)

theorem runFold_lookup_mem (search : SearchFn) (oracle : OracleFn)
    (mode : String) (jobs : List Schema) (pdfs : List (String × String))
    (memory : Memory) (clientPresent : Bool) :
    ∀ (pl : List PlanEntry) (acc : List (String × JobResult) × List BgTask)
      (p : String) (v : JobResult),
      (∀ e ∈ pl, e.schema.pdfPath = p →
        (processJob search oracle mode jobs pdfs memory clientPresent e).1 = v) →
      (∃ e ∈ pl, e.schema.pdfPath = p) →
      dictGet (pl.foldl (fun acc e =>
        (dictSet acc.1 e.schema.pdfPath
          (processJob search oracle mode jobs pdfs memory clientPresent e).1,
         acc.2 ++ ((processJob search oracle mode jobs pdfs memory clientPresent
           e).2).toList)) acc).1 p = some v := by
  intro pl
  induction pl with
  | nil =>
    intro acc p v _ hex
    obtain ⟨e, he, -⟩ := hex
    exact absurd he (List.not_mem_nil e)
  | cons e rest ih =>
    intro acc p v hall hex
    rw [List.foldl_cons]
    by_cases hrest : ∃ eq ∈ rest, eq.schema.pdfPath = p
    · exact ih _ p v (fun eq heq => hall eq (List.mem_cons_of_mem _ heq)) hrest
    · have hep : e.schema.pdfPath = p := by
        obtain ⟨ew, hew, hewp⟩ := hex
        rcases List.mem_cons.mp hew with rfl | hew2
        · exact hewp
        · exact absurd ⟨ew, hew2, hewp⟩ hrest
      rw [runFold_lookup_not_mem search oracle mode jobs pdfs memory
        clientPresent rest _ p (fun eq heq hp => hrest ⟨eq, heq, hp⟩)]
      dsimp only
      rw [← hep, dictGet_dictSet_self]
      rw [hall e (List.mem_cons_self _ _) hep]

theorem filterMap_eq_map_of_forall {α β : Type} (h : α → Option β) (g : α → β) :
    ∀ l : List α, (∀ a ∈ l, h a = some (g a)) → l.filterMap h = l.map g := by
  intro l
  induction l with
  | nil => intro _; rfl
  | cons a rest ih =>
    intro hall
    rw [List.filterMap_cons, hall a (List.mem_cons_self _ _), List.map_cons,
      ih (fun b hb => hall b (List.mem_cons_of_mem _ hb))]

theorem run_results_map (search : SearchFn) (oracle : OracleFn) (mode : String)
    (jobs : List Schema) (pdfs : List (String × String)) (memory : Memory)
    (clientPresent : Bool)
    (hnodup : (jobs.map (fun s => s.pdfPath)).Nodup) :
    (runModel search oracle mode jobs pdfs memory clientPresent).results
      = jobs.map (resultOf search oracle pdfs memory clientPresent) := by
  rw [runModel]
  dsimp only
  refine filterMap_eq_map_of_forall _ _ jobs ?_
  intro s hs
  refine runFold_lookup_mem search oracle mode jobs pdfs memory clientPresent
    (planOf mode memory jobs) ([], []) s.pdfPath
    (resultOf search oracle pdfs memory clientPresent s) ?_ ?_
  · intro e he hep
    rw [processJob_result]
    have hesin : e.schema ∈ jobs :=
      planOf_schema_mem mode memory jobs e he
    have heq : e.schema = s :=
      List.inj_on_of_nodup_map hnodup hesin hs hep
    rw [heq]
  · obtain ⟨e, he, hes⟩ := planOf_mem_of_schema mode memory jobs s hs
    exact ⟨e, he, by rw [hes]⟩

/-- C8: a job referencing text that was never supplied is annotated with an
error while every other job's result is exactly what it would be without
the failing job: all results equal the per-job `resultOf` function, which
depends only on that job's own schema, the texts, the cache and the
oracle; the error annotation appears exactly on missing-input jobs, and
the run over the batch without the failing job yields the same `resultOf`
values for the remaining jobs. -/
theorem C8_missing_input_isolation (mode : String) (search : SearchFn)
    (oracle : OracleFn) (jobs : List Schema) (pdfs : List (String × String))
    (memory : Memory) (clientPresent : Bool) (j : Schema)
    (hnodup : (jobs.map (fun s => s.pdfPath)).Nodup)
    (hj : j ∈ jobs) (hmiss : dictGet pdfs j.pdfPath = none) :
    (runModel search oracle mode jobs pdfs memory clientPresent).results
        = jobs.map (resultOf search oracle pdfs memory clientPresent)
    ∧ (resultOf search oracle pdfs memory clientPresent j).error ≠ none
    ∧ (∀ s : Schema,
        (resultOf search oracle pdfs memory clientPresent s).error ≠ none
          ↔ dictGet pdfs s.pdfPath = none)
    ∧ (runModel search oracle mode
        (jobs.filter (fun s => s.pdfPath ≠ j.pdfPath)) pdfs memory
        clientPresent).results
        = (jobs.filter (fun s => s.pdfPath ≠ j.pdfPath)).map
            (resultOf search oracle pdfs memory clientPresent) := by
  refine ⟨run_results_map search oracle mode jobs pdfs memory clientPresent
    hnodup, ?_, ?_, ?_⟩
  · rw [resultOf, hmiss]
    simp
  · intro s
    rcases hp : dictGet pdfs s.pdfPath with _ | text
    · rw [resultOf, hp]
      simp
    · rw [resultOf, hp]
      simp
  · refine run_results_map search oracle mode _ pdfs memory clientPresent ?_
    have hsub : ((jobs.filter (fun s => s.pdfPath ≠ j.pdfPath)).map
        (fun s => s.pdfPath)).Sublist (jobs.map (fun s => s.pdfPath)) :=
      (List.filter_sublist jobs).map _
    exact List.Nodup.sublist hsub hnodup

/-- Witness for C8: batch `[jobF, jobColdA]` where only `jobF`'s text is
supplied; the run returns the per-job results for both jobs and
`jobColdA`'s result carries the error annotation. -/
theorem C8_witness :
    (([jobF, jobColdA].map (fun s => s.pdfPath)).Nodup
      ∧ jobColdA ∈ [jobF, jobColdA]
      ∧ dictGet [("d1", "t")] jobColdA.pdfPath = none)
    ∧ (runModel searchX oracleHighV "smart" [jobF, jobColdA] [("d1", "t")]
        memF true).results
        = [jobF, jobColdA].map (resultOf searchX oracleHighV [("d1", "t")] memF true)
    ∧ (resultOf searchX oracleHighV [("d1", "t")] memF true jobColdA).error ≠ none :=
  ⟨⟨by decide, by decide, by decide⟩,
   (C8_missing_input_isolation "smart" searchX oracleHighV [jobF, jobColdA]
     [("d1", "t")] memF true jobColdA (by decide) (by decide) (by decide)).1,
   (C8_missing_input_isolation "smart" searchX oracleHighV [jobF, jobColdA]
     [("d1", "t")] memF true jobColdA (by decide) (by decide) (by decide)).2.1⟩

theorem extractModel_oracle_indep (search : SearchFn) (oA oB : OracleFn)
    (memory : Memory) (label : String) (sf : List (String × String))
    (text mode : String) (clientPresent : Bool) (reus : List String)
    (h : clientPresent = false
      ∨ rulesResolveAll search memory label sf text = true) :
    extractModel search oA memory label sf text mode clientPresent reus
      = extractModel search oB memory label sf text mode clientPresent reus := by
  rw [extractModel, extractModel]
  dsimp only
  set keys := dedupFirst (sf.map Prod.fst) with hkeys
  set data1 := applyKnownRules search text (keys.map (fun f => (f, "null")))
    (knownRulesOf memory label keys) with hdata1
  by_cases hany : (data1.any (fun p => p.2 = "null")) = true
  · rw [if_pos hany, if_pos hany]
    rcases h with hcl | hres
    · rw [if_neg (by rw [hcl]; exact Bool.false_ne_true),
        if_neg (by rw [hcl]; exact Bool.false_ne_true)]
    · exfalso
      rw [rulesResolveAll] at hres
      rw [← hkeys, ← hdata1, hany] at hres
      simp at hres
  · rw [if_neg hany, if_neg hany]

theorem processJob_oracle_indep (search : SearchFn) (oA oB : OracleFn)
    (mode : String) (jobs : List Schema) (pdfs : List (String × String))
    (memory : Memory) (clientPresent : Bool) (e : PlanEntry)
    (h : noOracleNeeded search memory pdfs clientPresent e.schema = true) :
    processJob search oA mode jobs pdfs memory clientPresent e
      = processJob search oB mode jobs pdfs memory clientPresent e := by
  rw [processJob, processJob]
  dsimp only
  rcases hp : dictGet pdfs e.schema.pdfPath with _ | text
  · rfl
  · dsimp only
    rw [noOracleNeeded, hp] at h
    have h2 : clientPresent = false
        ∨ rulesResolveAll search memory e.schema.label e.schema.fields text
          = true := by
      simpa using h
    rw [extractModel_oracle_indep search oA oB memory e.schema.label
      e.schema.fields text _ clientPresent _ h2]

theorem runFold_oracle_indep (search : SearchFn) (oA oB : OracleFn)
    (mode : String) (jobs : List Schema) (pdfs : List (String × String))
    (memory : Memory) (clientPresent : Bool)
    (h : ∀ s ∈ jobs, noOracleNeeded search memory pdfs clientPresent s = true) :
    ∀ (pl : List PlanEntry), (∀ e ∈ pl, e.schema ∈ jobs) →
      ∀ (acc : List (String × JobResult) × List BgTask),
      pl.foldl (fun acc e =>
        (dictSet acc.1 e.schema.pdfPath
          (processJob search oA mode jobs pdfs memory clientPresent e).1,
         acc.2 ++ ((processJob search oA mode jobs pdfs memory clientPresent
           e).2).toList)) acc
      = pl.foldl (fun acc e =>
        (dictSet acc.1 e.schema.pdfPath
          (processJob search oB mode jobs pdfs memory clientPresent e).1,
         acc.2 ++ ((processJob search oB mode jobs pdfs memory clientPresent
           e).2).toList)) acc := by
  intro pl
  induction pl with
  | nil => intro _ acc; rfl
  | cons e rest ih =>
    intro hsub acc
    rw [List.foldl_cons, List.foldl_cons]
    rw [processJob_oracle_indep search oA oB mode jobs pdfs memory clientPresent
      e (h e.schema (hsub e (List.mem_cons_self _ _)))]
    exact ih (fun eq heq => hsub eq (List.mem_cons_of_mem _ heq)) _

/-- C9 counterexample: in mode `standard` with an empty cache, the same job
list and texts yield different `ExtractionResult` sets under two runs
whose only difference is the oracle's answer (`"A"` vs `"B"`): `standard`
mode still consults the field-inference oracle for fields the cache does
not resolve, so the output is not a function of cache and inputs alone. -/
theorem C9_counterexample :
    (runModel searchNone oracleValA "standard" [jobColdA] [("pA", "t")] []
        true).results
      ≠ (runModel searchNone oracleValB "standard" [jobColdA] [("pA", "t")] []
        true).results := by decide

/-- C9 (amended): two runs in mode `standard` over the unchanged RuleCache and
the same input texts produce identical results provided no field-inference
call occurs — for every job, either its text is missing, or no client is
configured, or the cached rules resolve every field.  When the oracle is
consulted the results additionally depend on its answers. -/
theorem C9_amended (search : SearchFn) (oA oB : OracleFn) (jobs : List Schema)
    (pdfs : List (String × String)) (memory : Memory) (clientPresent : Bool)
    (h : ∀ s ∈ jobs, noOracleNeeded search memory pdfs clientPresent s = true) :
    runModel search oA "standard" jobs pdfs memory clientPresent
      = runModel search oB "standard" jobs pdfs memory clientPresent := by
  rw [runModel, runModel]
  dsimp only
  rw [runFold_oracle_indep search oA oB "standard" jobs pdfs memory
    clientPresent h (planOf "standard" memory jobs)
    (fun e he => planOf_schema_mem "standard" memory jobs e he) ([], [])]

/-- Witness for C9 (amended): a warm job whose cached rule matches its text
needs no oracle, and the two runs coincide. -/
theorem C9_witness :
    (∀ s ∈ [jobF], noOracleNeeded searchX memF [("d1", "t")] true s = true)
    ∧ runModel searchX oracleValA "standard" [jobF] [("d1", "t")] memF true
        = runModel searchX oracleValB "standard" [jobF] [("d1", "t")] memF true :=
  ⟨by decide,
   C9_amended searchX oracleValA oracleValB [jobF] [("d1", "t")] memF true
     (by decide)⟩
